import Mathlib

/-! goskeet, package `data`: the `Bytes` and `CIDLink` codecs.

A shallow embedding of `src/data/bytes.go` and `src/data/cid.go`.

Conventions of the embedding.

* A Go `byte` is a `Fin 256`; a Go `[]byte` that may be nil is `Bytes`
  (`Bytes.nil` or `Bytes.mk data`); a Go pointer that may be nil is an
  `Option`.
* A Go `string` and a JSON text are lists of code points (`List Char`): texts
  that are not valid UTF-8 are outside the embedding.
* A Go `(value, error)` result is a pair whose second component is
  `Option Error` (`none` is Go's `nil` error).
* The methods of the package call four libraries that are not part of the
  repository: `encoding/base64`, `encoding/json`, `github.com/fxamacker/cbor/v2`
  and `github.com/ipfs/go-cid`.  The first three are embedded below as far as
  the two codecs use them; the identifier library is a parameter (`CidLib`).
-/

namespace data

/-- A Go `byte`. -/
abbrev Byte := Fin 256

/-- The Go `error` values that the methods of the package return. -/
inductive Error where
  /-- `fmt.Errorf(msg)` -/
  | errorf (msg : String)
  /-- `*json.SyntaxError`: the text is not valid JSON -/
  | jsonSyntax
  /-- `*json.UnmarshalTypeError`: a JSON value does not fit the Go type -/
  | jsonUnmarshalType
  /-- `base64.CorruptInputError` -/
  | base64CorruptInput
  /-- `io.EOF`: the reader held no byte at all -/
  | eof
  /-- `io.ErrUnexpectedEOF`: the reader ended inside a data item -/
  | unexpectedEOF
  /-- `*cbor.SyntaxError`: the data item is not well-formed -/
  | cborSyntax
  /-- the cbor decoder's error for a length that overflows `int` -/
  | cborLengthOverflow
  /-- an error of the identifier library -/
  | cid (msg : String)
  /-- an error of the `io.Writer` -/
  | writer (msg : String)
  deriving DecidableEq, Repr

instance instDecidableEqExcept {ε α : Type} [DecidableEq ε] [DecidableEq α] :
    DecidableEq (Except ε α)
  | .ok a, .ok b => if h : a = b then isTrue (by rw [h]) else isFalse (by intro h2; cases h2; exact h rfl)
  | .error a, .error b =>
    if h : a = b then isTrue (by rw [h]) else isFalse (by intro h2; cases h2; exact h rfl)
  | .ok _, .error _ => isFalse (by intro h; cases h)
  | .error _, .ok _ => isFalse (by intro h; cases h)

/-- The Go type `Bytes` (`type Bytes []byte`): a nil slice, or a slice that
holds `data` (possibly of length zero). -/
inductive Bytes where
  | nil : Bytes
  | mk (data : List Byte) : Bytes
  deriving DecidableEq, Repr

/-! ## `encoding/base64`, `RawStdEncoding` -/

namespace base64

/-- The standard alphabet (`encodeStd`). -/
def encodeStd : List Char :=
  "ABCDEFGHIJKLMNOPQRSTUVWXYZabcdefghijklmnopqrstuvwxyz0123456789+/".toList

/-- The table lookup `enc.encode[i]`. -/
def encode (i : Nat) : Char := encodeStd.getD i 'A'

/-- The table lookup `enc.decodeMap[c]`: the position of `c` in the alphabet,
`0xff` for a character that is not in it. -/
def decodeMap (c : Char) : Nat :=
  if encodeStd.indexOf c < 64 then encodeStd.indexOf c else 0xff

/-- `RawStdEncoding.EncodeToString`: three bytes give four characters; a last
group of one or two bytes gives two or three characters, and no padding
character is added (`padChar == NoPadding`). -/
def EncodeToString : List Byte → List Char
  | b0 :: b1 :: b2 :: rest =>
    let val := b0.val <<< 16 ||| b1.val <<< 8 ||| b2.val
    encode (val >>> 18 &&& 0x3F) :: encode (val >>> 12 &&& 0x3F) ::
      encode (val >>> 6 &&& 0x3F) :: encode (val &&& 0x3F) :: EncodeToString rest
  | [b0, b1] =>
    let val := b0.val <<< 16 ||| b1.val <<< 8
    [encode (val >>> 18 &&& 0x3F), encode (val >>> 12 &&& 0x3F), encode (val >>> 6 &&& 0x3F)]
  | [b0] =>
    let val := b0.val <<< 16
    [encode (val >>> 18 &&& 0x3F), encode (val >>> 12 &&& 0x3F)]
  | [] => []

/-- The Go conversion `byte(x)` of an unsigned integer. -/
def toByte (x : Nat) : Byte := ⟨x % 256, Nat.mod_lt _ (by decide)⟩

/-- The end of `decodeQuantum`: the `dlen` six-bit values collected in `dbuf`
are assembled into `val` and give `dlen - 1` bytes.  The encoding is not
strict, so the unused low bits of the last value are not checked. -/
def quantumBytes (dbuf : List Nat) : List Byte :=
  let val := dbuf.getD 0 0 <<< 18 ||| dbuf.getD 1 0 <<< 12 ||| dbuf.getD 2 0 <<< 6 ||| dbuf.getD 3 0
  ([toByte (val >>> 16), toByte (val >>> 8), toByte val]).take (dbuf.length - 1)

/-- The loop of `Decode` over `decodeQuantum`, as one pass over the input:
`dbuf` holds the six-bit values of the quantum being read (fewer than four).
A character of the alphabet is added to the quantum, and the fourth one
completes it; `'\n'` and `'\r'` are skipped; any other character is corrupt
input (with `NoPadding` no character is a padding character).  At the end of
the input a quantum of one value is corrupt, an empty one gives nothing, and
one of two or three values gives one or two bytes. -/
def decodeLoop (dbuf : List Nat) : List Char → Except Error (List Byte)
  | [] => if dbuf.length = 1 then .error .base64CorruptInput else .ok (quantumBytes dbuf)
  | c :: rest =>
    if decodeMap c ≠ 0xff then
      if dbuf.length = 3 then
        match decodeLoop [] rest with
        | .ok out => .ok (quantumBytes (dbuf ++ [decodeMap c]) ++ out)
        | .error e => .error e
      else decodeLoop (dbuf ++ [decodeMap c]) rest
    else if c = '\n' ∨ c = '\r' then decodeLoop dbuf rest
    else .error .base64CorruptInput

/-- The characters that the decoder skips: `'\n'` and `'\r'`. -/
def isLineBreak (c : Char) : Bool := c = '\n' || c = '\r'

/-- `RawStdEncoding.DecodeString`. -/
def DecodeString (s : List Char) : Except Error (List Byte) := decodeLoop [] s

end base64

/-! ## `encoding/json`, for a struct with one string field -/

namespace json

/-- A JSON value, as the decoder reads it.  A number keeps its literal. -/
inductive Value where
  | null : Value
  | bool (b : Bool) : Value
  | number (lit : List Char) : Value
  | string (s : List Char) : Value
  | array (elems : List Value) : Value
  | object (members : List (List Char × Value)) : Value

/-- Whether a JSON value is a string. -/
def Value.isString : Value → Bool
  | Value.string _ => true
  | _ => false

/-- Whether a JSON value is `null`. -/
def Value.isNull : Value → Bool
  | Value.null => true
  | _ => false

/-- The scanner's `isSpace`. -/
def isSpace (c : Char) : Bool := c = ' ' || c = '\t' || c = '\r' || c = '\n'

/-- Skips the white space the scanner allows between tokens. -/
def skipSpace : List Char → List Char
  | [] => []
  | c :: rest => if isSpace c then skipSpace rest else c :: rest

/-- The value of a hexadecimal digit, as `getu4` reads it. -/
def hexDigit (c : Char) : Option Nat :=
  if '0' ≤ c ∧ c ≤ '9' then some (c.toNat - '0'.toNat)
  else if 'a' ≤ c ∧ c ≤ 'f' then some (c.toNat - 'a'.toNat + 10)
  else if 'A' ≤ c ∧ c ≤ 'F' then some (c.toNat - 'A'.toNat + 10)
  else none

/-- The rune of the four hexadecimal digits after a backslash and `u`
(`getu4`); `none` stands for its result -1. -/
def getu4 (h1 h2 h3 h4 : Char) : Option Nat :=
  match hexDigit h1, hexDigit h2, hexDigit h3, hexDigit h4 with
  | some a, some b, some c, some d => some (a * 4096 + b * 256 + c * 16 + d)
  | _, _, _, _ => none

/-- U+FFFD, `unicode.ReplacementChar`. -/
def replacementChar : Char := Char.ofNat 0xFFFD

/-- `utf16.IsSurrogate`. -/
def isSurrogate (r : Nat) : Bool := 0xD800 ≤ r && r < 0xE000

/-- `utf16.DecodeRune` on a valid pair: `r1` from U+D800 to U+DBFF and `r2`
from U+DC00 to U+DFFF. -/
def decodeRune (r1 r2 : Nat) : Char :=
  Char.ofNat (((r1 - 0xD800) <<< 10 ||| (r2 - 0xDC00)) + 0x10000)

/-- The character of a one-letter escape, `none` for a letter that is not
one. -/
def unescape (e : Char) : Option Char :=
  if e = '"' then some '"'
  else if e = '\\' then some '\\'
  else if e = '/' then some '/'
  else if e = 'b' then some (Char.ofNat 8)
  else if e = 'f' then some (Char.ofNat 12)
  else if e = 'n' then some '\n'
  else if e = 'r' then some '\r'
  else if e = 't' then some '\t'
  else none

/-- Puts `c` in front of the string that `r` holds. -/
def consChar (c : Char) (r : Option (List Char × List Char)) : Option (List Char × List Char) :=
  match r with
  | some (s, rest) => some (c :: s, rest)
  | none => none

/-- A high surrogate that was not followed by its pair becomes U+FFFD. -/
def flush (pend : Option Nat) (r : Option (List Char × List Char)) :
    Option (List Char × List Char) :=
  match pend with
  | some _ => consChar replacementChar r
  | none => r

/-- Reads a string literal after its opening quote: the scanner's checks (no
control character, only the escapes of JSON) and `unquote`, in one pass.  The
result is the string and the input after the closing quote.  `pend` is a high
surrogate whose escape was just read: `unquote` looks at the six characters
after it, and here the next step of the pass does; when they are the escape
of a low surrogate the two give one character, otherwise the surrogate gives
U+FFFD.  A low surrogate that follows no high one gives U+FFFD too. -/
def parseStringAux : Option Nat → List Char → Option (List Char × List Char)
  | _, [] => none
  | pend, c :: rest =>
    if c = '"' then flush pend (some ([], rest))
    else if c = '\\' then
      match rest with
      | [] => none
      | e :: rest1 =>
        if e = 'u' then
          match rest1 with
          | h1 :: h2 :: h3 :: h4 :: rest2 =>
            match getu4 h1 h2 h3 h4 with
            | none => none
            | some rr =>
              if 0xDC00 ≤ rr ∧ rr < 0xE000 then
                match pend with
                | some r1 => consChar (decodeRune r1 rr) (parseStringAux none rest2)
                | none => consChar replacementChar (parseStringAux none rest2)
              else if isSurrogate rr then flush pend (parseStringAux (some rr) rest2)
              else flush pend (consChar (Char.ofNat rr) (parseStringAux none rest2))
          | _ => none
        else
          match unescape e with
          | some ch => flush pend (consChar ch (parseStringAux none rest1))
          | none => none
    else if c.toNat < 0x20 then none
    else flush pend (consChar c (parseStringAux none rest))

/-- Reads a string literal after its opening quote. -/
def parseString (s : List Char) : Option (List Char × List Char) := parseStringAux none s

/-- Whether `c` is a decimal digit. -/
def isDigit (c : Char) : Bool := '0' ≤ c && c ≤ '9'

/-- Drops the decimal digits at the front. -/
def skipDigits : List Char → List Char
  | [] => []
  | c :: rest => if isDigit c then skipDigits rest else c :: rest

/-- After the integer part of a number: an optional exponent. -/
def scanExponent (s : List Char) : Option (List Char) :=
  match s with
  | [] => some []
  | c :: rest =>
    if c = 'e' ∨ c = 'E' then
      match rest with
      | [] => none
      | d :: rest1 =>
        if d = '+' ∨ d = '-' then
          match rest1 with
          | [] => none
          | d1 :: rest2 => if isDigit d1 then some (skipDigits rest2) else none
        else if isDigit d then some (skipDigits rest1) else none
    else some (c :: rest)

/-- After the integer part of a number: an optional fraction, then an optional
exponent. -/
def scanFraction (s : List Char) : Option (List Char) :=
  match s with
  | [] => some []
  | c :: rest =>
    if c = '.' then
      match rest with
      | [] => none
      | d :: rest1 => if isDigit d then scanExponent (skipDigits rest1) else none
    else scanExponent (c :: rest)

/-- After an optional minus sign: the integer part (`0`, or a digit from 1 to 9
and more digits), then the rest of the number. -/
def scanInteger (s : List Char) : Option (List Char) :=
  match s with
  | [] => none
  | c :: rest =>
    if c = '0' then scanFraction rest
    else if isDigit c then scanFraction (skipDigits rest)
    else none

/-- Scans a number literal; the result is the input after it. -/
def scanNumber (s : List Char) : Option (List Char) :=
  match s with
  | [] => none
  | c :: rest => if c = '-' then scanInteger rest else scanInteger (c :: rest)

/-- The scanner's `maxNestingDepth`. -/
def maxNestingDepth : Nat := 10000

/-- Drops `lit` from the front of `s`, when `s` starts with it. -/
def dropPrefix (lit : List Char) (s : List Char) : Option (List Char) :=
  if lit.isPrefixOf s then some (s.drop lit.length) else none

mutual

/-- Reads one value.  `depth` is the number of arrays and objects that are
open; `fuel` bounds the nesting of the calls, and the length of the input plus
one is enough (`parse_fuel_enough`). -/
def parseValue : Nat → Nat → List Char → Option (Value × List Char)
  | 0, _, _ => none
  | fuel + 1, depth, s =>
    match s with
    | [] => none
    | c :: rest =>
      if c = '{' then
        if depth + 1 > maxNestingDepth then none
        else
          match skipSpace rest with
          | [] => none
          | c1 :: rest1 =>
            if c1 = '}' then some (Value.object [], rest1)
            else
              match parseMembers fuel (depth + 1) (c1 :: rest1) with
              | some (ms, r) => some (Value.object ms, r)
              | none => none
      else if c = '[' then
        if depth + 1 > maxNestingDepth then none
        else
          match skipSpace rest with
          | [] => none
          | c1 :: rest1 =>
            if c1 = ']' then some (Value.array [], rest1)
            else
              match parseElements fuel (depth + 1) (c1 :: rest1) with
              | some (vs, r) => some (Value.array vs, r)
              | none => none
      else if c = '"' then
        match parseString rest with
        | some (str, r) => some (Value.string str, r)
        | none => none
      else if c = 't' then
        match dropPrefix "rue".toList rest with
        | some r => some (Value.bool true, r)
        | none => none
      else if c = 'f' then
        match dropPrefix "alse".toList rest with
        | some r => some (Value.bool false, r)
        | none => none
      else if c = 'n' then
        match dropPrefix "ull".toList rest with
        | some r => some (Value.null, r)
        | none => none
      else
        match scanNumber (c :: rest) with
        | some r => some (Value.number ((c :: rest).take ((c :: rest).length - r.length)), r)
        | none => none

/-- Reads the members of an object from the opening quote of a key up to the
closing brace. -/
def parseMembers : Nat → Nat → List Char → Option (List (List Char × Value) × List Char)
  | 0, _, _ => none
  | fuel + 1, depth, s =>
    match s with
    | [] => none
    | q :: rest =>
      if q = '"' then
        match parseString rest with
        | none => none
        | some (key, r1) =>
          match skipSpace r1 with
          | [] => none
          | c :: r2 =>
            if c = ':' then
              match parseValue fuel depth (skipSpace r2) with
              | none => none
              | some (v, r3) =>
                match skipSpace r3 with
                | [] => none
                | d :: r4 =>
                  if d = ',' then
                    match parseMembers fuel depth (skipSpace r4) with
                    | some (ms, r) => some ((key, v) :: ms, r)
                    | none => none
                  else if d = '}' then some ([(key, v)], r4)
                  else none
            else none
      else none

/-- Reads the elements of an array from the first element up to the closing
bracket. -/
def parseElements : Nat → Nat → List Char → Option (List Value × List Char)
  | 0, _, _ => none
  | fuel + 1, depth, s =>
    match parseValue fuel depth s with
    | none => none
    | some (v, r1) =>
      match skipSpace r1 with
      | [] => none
      | d :: r2 =>
        if d = ',' then
          match parseElements fuel depth (skipSpace r2) with
          | some (vs, r) => some (v :: vs, r)
          | none => none
        else if d = ']' then some ([v], r2)
        else none

end

/-- Reads a whole JSON text: one value, with white space around it and nothing
else (`checkValid`); `none` is a syntax error. -/
def parse (data : List Char) : Option Value :=
  match parseValue (data.length + 1) 0 (skipSpace data) with
  | some (v, rest) => if skipSpace rest = [] then some v else none
  | none => none

/-- The encoder's `htmlSafeSet`: the ASCII characters that are written as they
are. -/
def htmlSafe (c : Char) : Bool :=
  0x20 ≤ c.toNat && c.toNat < 0x80 && c ≠ '"' && c ≠ '&' && c ≠ '<' && c ≠ '>' && c ≠ '\\'

/-- The encoder's table `hex`. -/
def hex (n : Nat) : Char := "0123456789abcdef".toList.getD n '0'

/-- What `appendString` (with `escapeHTML`) writes for one character. -/
def escapeChar (c : Char) : List Char :=
  if c.toNat < 0x80 then
    if htmlSafe c then [c]
    else if c = '\\' ∨ c = '"' then ['\\', c]
    else if c = Char.ofNat 8 then ['\\', 'b']
    else if c = Char.ofNat 12 then ['\\', 'f']
    else if c = '\n' then ['\\', 'n']
    else if c = '\r' then ['\\', 'r']
    else if c = '\t' then ['\\', 't']
    else ['\\', 'u', '0', '0', hex (c.toNat >>> 4), hex (c.toNat &&& 0xF)]
  else if c = Char.ofNat 0x2028 ∨ c = Char.ofNat 0x2029 then
    ['\\', 'u', '2', '0', '2', hex (c.toNat &&& 0xF)]
  else [c]

/-- The characters of a string with their escapes. -/
def escape : List Char → List Char
  | [] => []
  | c :: rest => escapeChar c ++ escape rest

/-- `appendString`: the string literal of `s`. -/
def appendString (s : List Char) : List Char := '"' :: (escape s ++ ['"'])

/-- `json.Marshal` of a struct whose one field is a string with the tag
`json:"name"`: one object with that key.  It has no error case. -/
def Marshal (name value : List Char) : List Char :=
  '{' :: (appendString name ++ ':' :: (appendString value ++ ['}']))

/-- The decoder's `foldRune` inside `foldName`: a lower-case ASCII letter
becomes upper case, and a rune outside ASCII becomes the smallest rune of its
case-folding orbit.  Two such orbits hold ASCII letters: U+017F folds to `S`
and U+212A to `K`.  Any other rune outside ASCII folds to a rune outside ASCII
and is left as it is here, which does not change the keys that match an ASCII
field name. -/
def foldRune (c : Char) : Char :=
  if 'a' ≤ c ∧ c ≤ 'z' then Char.ofNat (c.toNat - ('a'.toNat - 'A'.toNat))
  else if c = Char.ofNat 0x17F then 'S'
  else if c = Char.ofNat 0x212A then 'K'
  else c

/-- The decoder's `foldName`. -/
def foldName (s : List Char) : List Char := s.map foldRune

/-- Whether the key of a member selects the field `name`: an exact match, or
a match of the folded names. -/
def fieldMatches (name key : List Char) : Bool :=
  key = name || foldName key = foldName name

/-- The decoder's walk over the members of an object, for the struct with the
one string field `name`.  The state is the field and the saved error.  A
member whose key selects the field stores a string, leaves the field as it is
for `null`, and saves an `UnmarshalTypeError` for any other value (only the
first error is kept, and the walk goes on).  Other members are skipped. -/
def assign (name : List Char) :
    List (List Char × Value) → List Char × Option Error → List Char × Option Error
  | [], st => st
  | (key, v) :: ms, (field, saved) =>
    if fieldMatches name key then
      match v with
      | Value.string s => assign name ms (s, saved)
      | Value.null => assign name ms (field, saved)
      | _ => assign name ms (field, saved <|> some Error.jsonUnmarshalType)
    else assign name ms (field, saved)

/-- The decoder on a parsed text, for a fresh struct with the one string field
`name`: the field after the call, or the error.  At the top an object is
walked, `null` changes nothing, and any other value is an
`UnmarshalTypeError`. -/
def decodeValue (name : List Char) (v : Value) : Except Error (List Char) :=
  match v with
  | Value.object ms =>
    match assign name ms ([], none) with
    | (field, none) => .ok field
    | (_, some err) => .error err
  | Value.null => .ok []
  | _ => .error Error.jsonUnmarshalType

/-- `json.Unmarshal(data, &v)` for a fresh struct `v` with the one string field
`name`: the field after the call, or the error. -/
def Unmarshal (name : List Char) (data : List Char) : Except Error (List Char) :=
  match parse data with
  | none => .error Error.jsonSyntax
  | some v => decodeValue name v

/-- What a successful call of one of the three parsing functions says about
every call with at least as much fuel as characters consumed, plus one. -/
def Adequate {α : Type} (f : Nat → Nat → List Char → Option (α × List Char)) (fuel : Nat) :
    Prop :=
  ∀ d s x r, f fuel d s = some (x, r) →
    r.length ≤ s.length ∧ ∀ f', s.length - r.length + 1 ≤ f' → f f' d s = some (x, r)

end json

/-! ## `github.com/fxamacker/cbor/v2`, for byte strings and null -/

/-- An `io.Writer`: the bytes it has accepted, and the error with which it
rejects a write (`none` for a writer that accepts every write, as
`bytes.Buffer` does). -/
structure Writer where
  buf : List Byte
  err : Option Error
  deriving DecidableEq, Repr

/-- A `bytes.Buffer` that holds nothing yet. -/
def Writer.buffer : Writer := { buf := [], err := none }

/-- `w.Write(p)`: the writer afterwards and the error. -/
def Writer.Write (w : Writer) (p : List Byte) : Writer × Option Error :=
  match w.err with
  | none => ({ w with buf := w.buf ++ p }, none)
  | some e => (w, some e)

namespace cbor

/-- The simple value null (`cborNil`). -/
def cborNil : List Byte := [0xf6]

/-- `cbor.CTAP2EncOptions().EncMode()`: the options of the preset are valid,
so there is no error. -/
def CTAP2EncMode : Option Error := none

/-- `encodeHead`: the initial byte with the major type `t` (already shifted)
and the argument `n` (a `uint64`) in its shortest form. -/
def encodeHead (t : Nat) (n : Nat) : List Byte :=
  if n ≤ 23 then [base64.toByte (t ||| n)]
  else if n ≤ 0xff then [base64.toByte (t ||| 24), base64.toByte n]
  else if n ≤ 0xffff then [base64.toByte (t ||| 25), base64.toByte (n >>> 8), base64.toByte n]
  else if n ≤ 0xffffffff then
    [base64.toByte (t ||| 26), base64.toByte (n >>> 24), base64.toByte (n >>> 16),
      base64.toByte (n >>> 8), base64.toByte n]
  else
    [base64.toByte (t ||| 27), base64.toByte (n >>> 56), base64.toByte (n >>> 48),
      base64.toByte (n >>> 40), base64.toByte (n >>> 32), base64.toByte (n >>> 24),
      base64.toByte (n >>> 16), base64.toByte (n >>> 8), base64.toByte n]

/-- The major type of byte strings, shifted (`cborTypeByteString`). -/
def cborTypeByteString : Nat := 0x40

/-- `encodeByteString` for a `[]byte`: a nil slice is written as null, any
other one as a byte string of definite length. -/
def encodeByteString (v : Bytes) : List Byte :=
  match v with
  | Bytes.nil => cborNil
  | Bytes.mk data => encodeHead cborTypeByteString data.length ++ data

/-- `enc.NewEncoder(w).Encode(v)` for a `[]byte`: the item is encoded and
handed to the writer in one write. -/
def EncodeBytes (w : Writer) (v : Bytes) : Writer × Option Error :=
  w.Write (encodeByteString v)

/-- The first data item of a stream, as far as this embedding goes. -/
inductive Item where
  /-- a byte string of definite length -/
  | byteString (payload : List Byte)
  /-- the simple value null or undefined -/
  | null
  deriving DecidableEq, Repr

/-- The big-endian number of the `k` bytes at the front (the argument of a
head), and the bytes after them; `none` when fewer than `k` bytes are left. -/
def readArgument : Nat → List Byte → Option (Nat × List Byte)
  | 0, s => some (0, s)
  | _ + 1, [] => none
  | k + 1, b :: rest =>
    match readArgument k rest with
    | some (n, s) => some (b.val * 256 ^ k + n, s)
    | none => none

/-- The payload of a byte string whose head gave the length `n`. -/
def readPayload (n : Nat) (s : List Byte) : Except Error Item :=
  if 2 ^ 63 ≤ n then .error Error.cborLengthOverflow
  else if s.length < n then .error Error.unexpectedEOF
  else .ok (Item.byteString (s.take n))

/-- The byte string after an initial byte with the additional information
`24 + i`, whose argument has `k` bytes. -/
def readSized (k : Nat) (s : List Byte) : Except Error Item :=
  match readArgument k s with
  | some (n, rest) => readPayload n rest
  | none => .error Error.unexpectedEOF

/-- What `Decoder.Decode` finds at the front of the reader `r` (the bytes the
reader delivers before its end): the well-formedness check of the first data
item and its reading.  An empty reader is `io.EOF`, an item that is cut short
is `io.ErrUnexpectedEOF`.  Bytes after the item stay in the decoder.  The
result is `none` for the items that this embedding leaves out: everything but
byte strings of definite length and the simple values null and undefined. -/
def nextItem : List Byte → Option (Except Error Item)
  | [] => some (.error Error.eof)
  | b :: rest =>
    if b = 0xf6 ∨ b = 0xf7 then some (.ok Item.null)
    else if b.val >>> 5 = 2 then
      if b.val &&& 0x1f < 24 then some (readPayload (b.val &&& 0x1f) rest)
      else if b.val &&& 0x1f = 24 then some (readSized 1 rest)
      else if b.val &&& 0x1f = 25 then some (readSized 2 rest)
      else if b.val &&& 0x1f = 26 then some (readSized 4 rest)
      else if b.val &&& 0x1f = 27 then some (readSized 8 rest)
      else if b.val &&& 0x1f = 31 then none
      else some (.error Error.cborSyntax)
    else none

end cbor

/-! ## `bytes.go` -/

/-- The elements of a `Bytes`; a nil slice has none. -/
def Bytes.elems : Bytes → List Byte
  | Bytes.nil => []
  | Bytes.mk data => data

/-- `func (b Bytes) Bytes() []byte`: the conversion `[]byte(b)`, which keeps
nil.  (The name is in lower case because `Bytes.Bytes` would hide the type.) -/
def Bytes.bytes (b : Bytes) : Bytes := b

/-- `func (b Bytes) MarshalJSON() ([]byte, error)`. -/
def Bytes.MarshalJSON (b : Bytes) : Option (List Char) × Option Error :=
  if b = Bytes.nil then (none, some (Error.errorf "cannot marshal nil $bytes"))
  else (some (json.Marshal "$bytes".toList (base64.EncodeToString b.bytes.elems)), none)

/-- `func (b *Bytes) UnmarshalJSON(data []byte) error`, through a pointer that
is not nil: `b` is what the pointer refers to before the call, and the result
is what it refers to afterwards, with the error. -/
def Bytes.UnmarshalJSON (b : Bytes) (data : List Char) : Bytes × Option Error :=
  match json.Unmarshal "$bytes".toList data with
  | .error err => (b, some err)
  | .ok jb =>
    match base64.DecodeString jb with
    | .error err => (b, some err)
    | .ok decoded => (Bytes.mk decoded, none)

/-- `func (b *Bytes) MarshalCBOR(w io.Writer) error`: `b` is `none` for a nil
pointer; the result is the writer afterwards and the error. -/
def Bytes.MarshalCBOR (b : Option Bytes) (w : Writer) : Writer × Option Error :=
  match cbor.CTAP2EncMode with
  | some err => (w, some err)
  | none =>
    match b with
    | none => w.Write [0xf6]
    | some v => cbor.EncodeBytes w v.bytes

/-- `func (b *Bytes) UnmarshalCBOR(r io.Reader) error`, through a pointer that
is not nil: `b` is what the pointer refers to before the call and `r` the bytes
the reader delivers.  The decoder is given `&b`, the address of the method's
copy of the pointer.  For a byte string it follows the pointer and stores the
payload in what it refers to; for null it sets the copy of the pointer to nil,
which leaves what the pointer referred to as it was.  The result is `none`
where `cbor.nextItem` is. -/
def Bytes.UnmarshalCBOR (b : Bytes) (r : List Byte) : Option (Bytes × Option Error) :=
  match cbor.nextItem r with
  | none => none
  | some (.error err) => some (b, some err)
  | some (.ok (cbor.Item.byteString payload)) => some (Bytes.mk payload, none)
  | some (.ok cbor.Item.null) => some (b, none)

/-! ## `cid.go` -/

/-- The constant `CBOR_NULL`. -/
def CBOR_NULL : Byte := 0xf6

/-- The type `cid.Cid` of the identifier library: `struct{ str string }`, where
`str` is the binary form of the identifier and the zero value has none. -/
structure Cid where
  str : List Byte
  deriving DecidableEq, Repr

/-- `func (c Cid) Defined() bool`: `c.str != ""`. -/
def Cid.Defined (c : Cid) : Bool := c.str ≠ []

/-- `func (c Cid) MarshalBinary() ([]byte, error)`: the bytes of `c.str`, with
no error case. -/
def Cid.MarshalBinary (c : Cid) : List Byte := c.str

/-- The functions of the identifier library that parse and print; they are
parameters of the embedding. -/
structure CidLib where
  /-- `cid.Decode`: the parser of identifier strings -/
  Decode : List Char → Except Error Cid
  /-- `Cid.String`: the canonical string -/
  toString : Cid → List Char
  /-- `cid.Cast`: the parser of the binary form -/
  Cast : List Byte → Except Error Cid

/-- `func (c *Cid) UnmarshalBinary(data []byte) error`: the identifier after
the call, and the error. -/
def Cid.UnmarshalBinary (lib : CidLib) (c : Cid) (data : List Byte) : Cid × Option Error :=
  match lib.Cast data with
  | .error err => (c, some err)
  | .ok casted => ({ str := casted.str }, none)

/-- The type `CIDLink`. -/
structure CIDLink where
  link : Cid
  deriving DecidableEq, Repr

/-- `func (c CIDLink) String() string`. -/
def CIDLink.String (lib : CidLib) (c : CIDLink) : List Char := lib.toString c.link

/-- `func (c CIDLink) MarshalJSON() ([]byte, error)`. -/
def CIDLink.MarshalJSON (lib : CidLib) (c : CIDLink) : Option (List Char) × Option Error :=
  if !c.link.Defined then (none, some (Error.errorf "tried to marshal nil cid-link"))
  else (some (json.Marshal "$link".toList (lib.toString c.link)), none)

/-- `func (c *CIDLink) UnmarshalJSON(data []byte) error`, through a pointer
that is not nil: the link before the call, and the link afterwards with the
error. -/
def CIDLink.UnmarshalJSON (lib : CidLib) (c : CIDLink) (data : List Char) :
    CIDLink × Option Error :=
  match json.Unmarshal "$link".toList data with
  | .error err => (c, some err)
  | .ok jl =>
    match lib.Decode jl with
    | .error err => (c, some err)
    | .ok link => ({ c with link := link }, none)

/-- `enc.NewEncoder(w).Encode(v)` for a `cid.Cid`: the type is an
`encoding.BinaryMarshaler`, so the encoder writes the result of `MarshalBinary`
as a byte string. -/
def cbor.EncodeCid (w : Writer) (v : Cid) : Writer × Option Error :=
  w.Write (cbor.encodeHead cbor.cborTypeByteString v.MarshalBinary.length ++ v.MarshalBinary)

/-- `func (c *CIDLink) MarshalCBOR(w io.Writer) error`: `c` is `none` for a nil
pointer; the result is the writer afterwards and the error. -/
def CIDLink.MarshalCBOR (c : Option CIDLink) (w : Writer) : Writer × Option Error :=
  match cbor.CTAP2EncMode with
  | some err => (w, some err)
  | none =>
    match c with
    | none => w.Write [CBOR_NULL]
    | some l =>
      if !l.link.Defined then (w, some (Error.errorf "tried to marshal nil cid-link"))
      else cbor.EncodeCid w l.link

/-- Whether the first item of the stream is the map with no pair, the byte
0xa0. -/
def cbor.startsWithEmptyMap : List Byte → Bool
  | [] => false
  | b :: _ => b = 0xa0

/-- `func (c *CIDLink) UnmarshalCBOR(r io.Reader) error`, through a pointer
that is not nil: the decoder is given `&c.link`, a pointer to a struct that is
an `encoding.BinaryUnmarshaler`.  A byte string goes to `UnmarshalBinary`; null
and undefined have no effect on a value that is not a pointer, slice, map or
interface, and give no error; a map goes to the fields of the struct, of which
`cid.Cid` has none that is exported, so the map with no pair stores nothing
and gives no error.  The result is `none` for the other items that
`cbor.nextItem` leaves out. -/
def CIDLink.UnmarshalCBOR (lib : CidLib) (c : CIDLink) (r : List Byte) :
    Option (CIDLink × Option Error) :=
  match cbor.nextItem r with
  | none => if cbor.startsWithEmptyMap r then some (c, none) else none
  | some (.error err) => some (c, some err)
  | some (.ok (cbor.Item.byteString payload)) =>
    match c.link.UnmarshalBinary lib payload with
    | (link, err) => some ({ c with link := link }, err)
  | some (.ok cbor.Item.null) => some (c, none)

/-! ## The values of the tests (`bytes_test.go`, `cid_test.go`) -/

/-- The bytes of a text of ASCII characters (the conversion `[]byte(s)`). -/
def bytesOf (s : String) : List Byte := s.toList.map (fun c => base64.toByte c.toNat)

/-- The constant `TEST_BYTES`. -/
def TEST_BYTES : String := "dGVzdCBkYXRh"

/-- The constant `TEST_BYTES_JSON`. -/
def TEST_BYTES_JSON : String := "\x7b\"$bytes\":\"dGVzdCBkYXRh\"\x7d"

/-- The constant `TEST_BYTES_STRING`. -/
def TEST_BYTES_STRING : String := "test data"

/-- The constant `TEST_CID`. -/
def TEST_CID : String := "bafyreibfd77vb2setujncomtz3j6xswrmiuxlykora6nogxbr4arhqu2ye"

/-- The constant `INVALID_CID`. -/
def INVALID_CID : String := "bafyreibfd77vb2setujncomtz3j6xswrmiuxlykora6nogxbr4arhqu2y"

/-- The constant `TEST_JSON`. -/
def TEST_JSON : String :=
  "\x7b\"$link\": \"bafyreibfd77vb2setujncomtz3j6xswrmiuxlykora6nogxbr4arhqu2ye\"\x7d"

/-- The identifier of `TEST_CID` in binary form: version 1, codec 0x71, a
sha2-256 multihash. -/
def testCid : Cid :=
  { str := [0x01, 0x71, 0x12, 0x20, 0x25, 0x1f, 0xff, 0x50, 0xea, 0x44, 0x9d, 0x12, 0xd1, 0x39,
      0x93, 0xce, 0xd3, 0xeb, 0xca, 0xd1, 0x62, 0x29, 0x75, 0xe1, 0x4e, 0x88, 0x3c, 0xd7, 0x1a,
      0xe1, 0x8f, 0x01, 0x13, 0xc2, 0x9a, 0xc1] }

/-- An instance of the identifier library that knows the one identifier of the
tests: it parses `TEST_CID` and the binary form of `testCid`, rejects every
other input, and prints `TEST_CID`.  It serves to instantiate the statements
that hold for every library. -/
def testLib : CidLib where
  Decode := fun s =>
    if s = TEST_CID.toList then .ok testCid else .error (Error.cid "invalid cid")
  toString := fun _ => TEST_CID.toList
  Cast := fun b =>
    if b = testCid.str then .ok testCid else .error (Error.cid "invalid cid")

/-! ## Facts of the embedding -/

namespace base64

theorem and_63 (x : Nat) : x &&& 0x3F = x % 64 := Nat.and_pow_two_sub_one_eq_mod x 6

theorem or_shift (a b : Nat) (i : Nat) (hb : b < 2 ^ i) : a <<< i ||| b = a * 2 ^ i + b := by
  rw [Nat.shiftLeft_eq, Nat.mul_comm, Nat.mul_add_lt_is_or hb]

theorem val_encode (a b c : Nat) (hb : b < 256) (hc : c < 256) :
    a <<< 16 ||| b <<< 8 ||| c = a * 65536 + b * 256 + c := by
  have h1 : a <<< 16 ||| b <<< 8 = (a * 256 + b) <<< 8 := by
    rw [Nat.shiftLeft_eq b, or_shift a (b * 2 ^ 8) 16 (by omega), Nat.shiftLeft_eq]; omega
  rw [h1, or_shift _ c 8 (by omega)]; omega

theorem val_decode (a b c d : Nat) (hb : b < 64) (hc : c < 64) (hd : d < 64) :
    a <<< 18 ||| b <<< 12 ||| c <<< 6 ||| d = a * 262144 + b * 4096 + c * 64 + d := by
  have h1 : a <<< 18 ||| b <<< 12 = (a * 64 + b) <<< 12 := by
    rw [Nat.shiftLeft_eq b, or_shift a (b * 2 ^ 12) 18 (by omega), Nat.shiftLeft_eq]; omega
  have h2 : (a * 64 + b) <<< 12 ||| c <<< 6 = ((a * 64 + b) * 64 + c) <<< 6 := by
    rw [Nat.shiftLeft_eq c, or_shift _ (c * 2 ^ 6) 12 (by omega), Nat.shiftLeft_eq]; omega
  rw [h1, h2, or_shift _ d 6 (by omega)]; omega

theorem decodeMap_encode : ∀ i, i < 64 → decodeMap (encode i) = i := by decide

theorem decodeMap_encode_mod (x : Nat) : decodeMap (encode (x % 64)) = x % 64 :=
  decodeMap_encode _ (Nat.mod_lt _ (by decide))

theorem toByte_val (x : Nat) : (toByte x).val = x % 256 := rfl

theorem decodeLoop_valid (dbuf : List Nat) (x : Nat) (rest : List Char) (h : dbuf.length < 3) :
    decodeLoop dbuf (encode (x % 64) :: rest) = decodeLoop (dbuf ++ [x % 64]) rest := by
  have hx : x % 64 < 64 := Nat.mod_lt _ (by decide)
  rw [decodeLoop, decodeMap_encode_mod]
  rw [if_pos (by omega), if_neg (by omega)]

theorem decodeLoop_fourth (dbuf : List Nat) (x : Nat) (rest : List Char) (h : dbuf.length = 3) :
    decodeLoop dbuf (encode (x % 64) :: rest) =
      match decodeLoop [] rest with
      | .ok out => .ok (quantumBytes (dbuf ++ [x % 64]) ++ out)
      | .error e => .error e := by
  have hx : x % 64 < 64 := Nat.mod_lt _ (by decide)
  rw [decodeLoop, decodeMap_encode_mod]
  rw [if_pos (by omega), if_pos h]

theorem quantum3 (b0 b1 b2 : Byte) :
    quantumBytes [(b0.val <<< 16 ||| b1.val <<< 8 ||| b2.val) >>> 18 % 64,
      (b0.val <<< 16 ||| b1.val <<< 8 ||| b2.val) >>> 12 % 64,
      (b0.val <<< 16 ||| b1.val <<< 8 ||| b2.val) >>> 6 % 64,
      (b0.val <<< 16 ||| b1.val <<< 8 ||| b2.val) % 64] = [b0, b1, b2] := by
  have h0 := b0.isLt
  have h1 := b1.isLt
  have h2 := b2.isLt
  rw [val_encode _ _ _ h1 h2]
  simp only [quantumBytes, List.getD_cons_zero, List.getD_cons_succ, List.length_cons,
    List.length_nil, Nat.shiftRight_eq_div_pow]
  rw [val_decode _ _ _ _ (Nat.mod_lt _ (by decide)) (Nat.mod_lt _ (by decide))
    (Nat.mod_lt _ (by decide))]
  simp only [List.take, List.cons.injEq, and_true]
  refine ⟨?_, ?_, ?_⟩ <;> apply Fin.ext <;> rw [toByte_val] <;> omega

theorem quantum2 (b0 b1 : Byte) :
    quantumBytes [(b0.val <<< 16 ||| b1.val <<< 8) >>> 18 % 64,
      (b0.val <<< 16 ||| b1.val <<< 8) >>> 12 % 64,
      (b0.val <<< 16 ||| b1.val <<< 8) >>> 6 % 64] = [b0, b1] := by
  have h0 := b0.isLt
  have h1 := b1.isLt
  have h := val_encode b0.val b1.val 0 h1 (by decide)
  rw [Nat.or_zero, Nat.add_zero] at h
  rw [h]
  simp only [quantumBytes, List.getD_cons_zero, List.getD_cons_succ, List.length_cons,
    List.length_nil, Nat.shiftRight_eq_div_pow, List.getD_nil]
  rw [val_decode _ _ _ _ (Nat.mod_lt _ (by decide)) (Nat.mod_lt _ (by decide)) (by decide)]
  simp only [List.take, List.cons.injEq, and_true]
  refine ⟨?_, ?_⟩ <;> apply Fin.ext <;> rw [toByte_val] <;> omega

theorem quantum1 (b0 : Byte) :
    quantumBytes [(b0.val <<< 16) >>> 18 % 64, (b0.val <<< 16) >>> 12 % 64] = [b0] := by
  have h0 := b0.isLt
  simp only [quantumBytes, List.getD_cons_zero, List.getD_cons_succ, List.length_cons,
    List.length_nil, Nat.shiftRight_eq_div_pow, List.getD_nil, Nat.shiftLeft_eq b0.val]
  rw [val_decode _ _ _ _ (Nat.mod_lt _ (by decide)) (by decide) (by decide)]
  simp only [List.take, List.cons.injEq, and_true]
  apply Fin.ext; rw [toByte_val]; omega

/-- Decoding what `EncodeToString` gives returns the bytes. -/
theorem decode_encode (p : List Byte) : DecodeString (EncodeToString p) = .ok p := by
  unfold DecodeString
  induction p using EncodeToString.induct with
  | case1 b0 b1 b2 rest ih =>
    simp only [EncodeToString, and_63]
    rw [decodeLoop_valid _ _ _ (by simp), decodeLoop_valid _ _ _ (by simp),
      decodeLoop_valid _ _ _ (by simp), decodeLoop_fourth _ _ _ (by simp), ih]
    simp only [List.nil_append, List.cons_append]
    rw [quantum3]; rfl
  | case2 b0 b1 =>
    simp only [EncodeToString, and_63]
    rw [decodeLoop_valid _ _ _ (by simp), decodeLoop_valid _ _ _ (by simp),
      decodeLoop_valid _ _ _ (by simp)]
    simp only [List.nil_append, List.cons_append, decodeLoop]
    rw [quantum2]; simp
  | case3 b0 =>
    simp only [EncodeToString, and_63]
    rw [decodeLoop_valid _ _ _ (by simp), decodeLoop_valid _ _ _ (by simp)]
    simp only [List.nil_append, List.cons_append, decodeLoop]
    rw [quantum1]; simp
  | case4 => simp [EncodeToString, decodeLoop, quantumBytes]

end base64
namespace json

theorem char_eq_iff (c d : Char) : c = d ↔ c.toNat = d.toNat := by
  constructor
  · intro h; rw [h]
  · intro h
    apply Char.ext
    apply UInt32.ext
    exact h

theorem parse_raw (c : Char) (u : List Char) (h1 : c ≠ '"') (h2 : c ≠ '\\')
    (h3 : ¬ c.toNat < 0x20) :
    parseStringAux none (c :: u) = consChar c (parseStringAux none u) := by
  rw [parseStringAux.eq_def]
  simp only [if_neg h1, if_neg h2, if_neg h3, flush]

theorem parse_esc (e ch : Char) (u : List Char) (he : e ≠ 'u') (hu : unescape e = some ch) :
    parseStringAux none ('\\' :: e :: u) = consChar ch (parseStringAux none u) := by
  rw [parseStringAux.eq_def]
  simp only [if_neg he, hu, flush]
  simp

theorem parse_u (h1 h2 h3 h4 : Char) (u : List Char) (rr : Nat)
    (hg : getu4 h1 h2 h3 h4 = some rr) (hlt : rr < 0xD800) :
    parseStringAux none ('\\' :: 'u' :: h1 :: h2 :: h3 :: h4 :: u) =
      consChar (Char.ofNat rr) (parseStringAux none u) := by
  rw [parseStringAux.eq_def]
  have hs : isSurrogate rr = false := by
    simp only [isSurrogate, Bool.and_eq_false_imp, decide_eq_true_eq, decide_eq_false_iff_not]
    omega
  have hl : ¬ (0xDC00 ≤ rr ∧ rr < 0xE000) := by omega
  simp only [hg, hs, if_neg hl, flush]
  simp

theorem getu4_hex : ∀ n, n < 128 → getu4 '0' '0' (hex (n >>> 4)) (hex (n &&& 0xF)) = some n := by
  decide

/-- Reading what `appendString` writes for one character gives the character
back. -/
theorem parse_escapeChar (c : Char) (u : List Char) :
    parseStringAux none (escapeChar c ++ u) = consChar c (parseStringAux none u) := by
  unfold escapeChar
  split
  · rename_i hlt
    split
    · rename_i hs
      simp only [htmlSafe, Bool.and_eq_true, decide_eq_true_eq, bne_iff_ne, ne_eq] at hs
      exact parse_raw c u hs.1.1.1.1.2 hs.2 (by omega)
    · rename_i hs
      split
      · rename_i h
        rcases h with h | h <;> subst h <;> exact parse_esc _ _ u (by decide) (by decide)
      · split
        · rename_i h; subst h; exact parse_esc 'b' _ u (by decide) (by decide)
        · split
          · rename_i h; subst h; exact parse_esc 'f' _ u (by decide) (by decide)
          · split
            · rename_i h; subst h; exact parse_esc 'n' _ u (by decide) (by decide)
            · split
              · rename_i h; subst h; exact parse_esc 'r' _ u (by decide) (by decide)
              · split
                · rename_i h; subst h; exact parse_esc 't' _ u (by decide) (by decide)
                · have := parse_u '0' '0' _ _ u c.toNat (getu4_hex c.toNat hlt) (by omega)
                  rw [Char.ofNat_toNat] at this
                  exact this
  · rename_i hge
    split
    · rename_i h
      rcases h with h | h <;> subst h <;> exact parse_u _ _ _ _ u _ (by decide) (by decide)
    · apply parse_raw
      · intro h; subst h; exact hge (by decide)
      · intro h; subst h; exact hge (by decide)
      · omega

/-- Reading the literal that `appendString` writes gives the string back. -/
theorem parseString_escape (s u : List Char) :
    parseString (escape s ++ '"' :: u) = some (s, u) := by
  unfold parseString
  induction s with
  | nil => rw [parseStringAux.eq_def]; simp [escape, flush]
  | cons c rest ih =>
    rw [escape, List.append_assoc, parse_escapeChar, ih]; rfl

theorem Marshal_eq (name value : List Char) :
    Marshal name value =
      '{' :: '"' :: (escape name ++ '"' :: ':' :: '"' :: (escape value ++ '"' :: ['}'])) := by
  simp [Marshal, appendString]

theorem skipSpace_cons (c : Char) (r : List Char) (h : isSpace c = false) :
    skipSpace (c :: r) = c :: r := by
  simp [skipSpace, h]

theorem parseValue_envelope (k : Nat) (name value rest : List Char) :
    parseValue (k + 3) 0
      ('{' :: '"' :: (escape name ++ '"' :: ':' :: '"' :: (escape value ++ '"' :: '}' :: rest))) =
      some (Value.object [(name, Value.string value)], rest) := by
  rw [parseValue]
  simp only [if_pos, skipSpace_cons '"' _ (by decide), maxNestingDepth]
  rw [if_neg (by decide), if_neg (by decide), parseMembers]
  simp only [parseString_escape, skipSpace_cons ':' _ (by decide),
    skipSpace_cons '"' _ (by decide), if_pos]
  rw [parseValue]
  simp [parseString_escape, skipSpace_cons '}' _ (by decide)]

/-- The text that `Marshal` writes is read as one object with the one
member. -/
theorem parse_Marshal (name value : List Char) :
    parse (Marshal name value) = some (Value.object [(name, Value.string value)]) := by
  rw [Marshal_eq, parse]
  have hk : ∃ k, ('{' :: '"' :: (escape name ++ '"' :: ':' :: '"' ::
      (escape value ++ '"' :: ['}']))).length + 1 = k + 3 := by
    refine ⟨(escape name).length + (escape value).length + 5, ?_⟩
    simp only [List.length_cons, List.length_append, List.length_nil]
    omega
  obtain ⟨k, hk⟩ := hk
  rw [hk, skipSpace_cons '{' _ (by decide), parseValue_envelope]
  simp [skipSpace]

theorem fieldMatches_self (name : List Char) : fieldMatches name name = true := by
  simp [fieldMatches]

/-- `Unmarshal` gives back the field that `Marshal` wrote. -/
theorem Unmarshal_Marshal (name value : List Char) :
    Unmarshal name (Marshal name value) = .ok value := by
  simp [Unmarshal, parse_Marshal, decodeValue, assign, fieldMatches_self]

theorem skipSpace_length (s : List Char) : (skipSpace s).length ≤ s.length := by
  induction s with
  | nil => simp [skipSpace]
  | cons c rest ih =>
    rw [skipSpace]
    split
    · simp only [List.length_cons]; omega
    · exact Nat.le_refl _

theorem skipDigits_length (s : List Char) : (skipDigits s).length ≤ s.length := by
  induction s with
  | nil => simp [skipDigits]
  | cons c rest ih =>
    rw [skipDigits]
    split
    · simp only [List.length_cons]; omega
    · exact Nat.le_refl _

theorem scanExponent_length (s r : List Char) (h : scanExponent s = some r) :
    r.length ≤ s.length := by
  unfold scanExponent at h
  split at h
  · cases h; simp
  · split at h
    · split at h
      · cases h
      · split at h
        · split at h
          · cases h
          · split at h
            · cases h
              have := skipDigits_length ‹List Char›
              simp only [List.length_cons]; omega
            · cases h
        · split at h
          · cases h
            have := skipDigits_length ‹List Char›
            simp only [List.length_cons]; omega
          · cases h
    · cases h; exact Nat.le_refl _

theorem scanFraction_length (s r : List Char) (h : scanFraction s = some r) :
    r.length ≤ s.length := by
  unfold scanFraction at h
  split at h
  · cases h; simp
  · split at h
    · split at h
      · cases h
      · split at h
        · have h1 := scanExponent_length _ _ h
          have h2 := skipDigits_length ‹List Char›
          simp only [List.length_cons]; omega
        · cases h
    · exact scanExponent_length _ _ h

theorem scanInteger_length (s r : List Char) (h : scanInteger s = some r) :
    r.length ≤ s.length := by
  unfold scanInteger at h
  split at h
  · cases h
  · split at h
    · have h1 := scanFraction_length _ _ h
      simp only [List.length_cons]; omega
    · split at h
      · have h1 := scanFraction_length _ _ h
        have h2 := skipDigits_length ‹List Char›
        simp only [List.length_cons]; omega
      · cases h

theorem scanNumber_length (s r : List Char) (h : scanNumber s = some r) :
    r.length ≤ s.length := by
  unfold scanNumber at h
  split at h
  · cases h
  · split at h
    · have h1 := scanInteger_length _ _ h
      simp only [List.length_cons]; omega
    · exact scanInteger_length _ _ h

theorem dropPrefix_length (lit s r : List Char) (h : dropPrefix lit s = some r) :
    r.length ≤ s.length := by
  unfold dropPrefix at h
  split at h
  · cases h; simp
  · cases h

theorem consChar_length (c : Char) (x : Option (List Char × List Char)) (str r : List Char)
    (n : Nat) (h : consChar c x = some (str, r))
    (hx : ∀ str1 r1, x = some (str1, r1) → r1.length ≤ n) : r.length ≤ n := by
  cases x with
  | none => simp [consChar] at h
  | some pr =>
    obtain ⟨s1, r1⟩ := pr
    simp only [consChar, Option.some.injEq, Prod.mk.injEq] at h
    rw [← h.2]
    exact hx s1 r1 rfl

theorem flush_length (pend : Option Nat) (x : Option (List Char × List Char)) (str r : List Char)
    (n : Nat) (h : flush pend x = some (str, r))
    (hx : ∀ str1 r1, x = some (str1, r1) → r1.length ≤ n) : r.length ≤ n := by
  unfold flush at h
  split at h
  · exact consChar_length _ _ _ _ _ h hx
  · exact hx _ _ h

theorem parseStringAux_length_aux (n : Nat) :
    ∀ s : List Char, s.length ≤ n →
      ∀ pend str r, parseStringAux pend s = some (str, r) → r.length ≤ s.length := by
  induction n with
  | zero =>
    intro s hs pend str r h
    cases s with
    | nil => rw [parseStringAux.eq_def] at h; cases h
    | cons c rest => simp at hs
  | succ n ih =>
    intro s hs pend str r h
    have hrec : ∀ (t : List Char) (k : Nat), t.length + k ≤ s.length → 0 < k →
        ∀ pend1 str1 r1, parseStringAux pend1 t = some (str1, r1) → r1.length ≤ s.length := by
      intro t k hk hpos pend1 str1 r1 h1
      have := ih t (by omega) pend1 str1 r1 h1
      omega
    rw [parseStringAux.eq_def] at h
    split at h
    · cases h
    · rename_i c rest
      simp only [List.length_cons] at hrec ⊢
      split at h
      · refine flush_length _ _ _ _ _ h ?_
        intro s1 r1 h1; cases h1; omega
      · split at h
        · split at h
          · cases h
          · rename_i e rest1
            simp only [List.length_cons] at hrec
            split at h
            · split at h
              · rename_i h1 h2 h3 h4 rest2
                simp only [List.length_cons] at hrec
                split at h
                · cases h
                · split at h
                  · split at h
                    · exact consChar_length _ _ _ _ _ h (hrec rest2 6 (by omega) (by omega) none)
                    · exact consChar_length _ _ _ _ _ h (hrec rest2 6 (by omega) (by omega) none)
                  · split at h
                    · exact flush_length _ _ _ _ _ h
                        (hrec rest2 6 (by omega) (by omega) _)
                    · refine flush_length _ _ _ _ _ h ?_
                      intro s1 r1 h1
                      exact consChar_length _ _ _ _ _ h1
                        (hrec rest2 6 (by omega) (by omega) none)
              · cases h
            · split at h
              · refine flush_length _ _ _ _ _ h ?_
                intro s1 r1 h1
                exact consChar_length _ _ _ _ _ h1 (hrec rest1 2 (by omega) (by omega) none)
              · cases h
        · split at h
          · cases h
          · refine flush_length _ _ _ _ _ h ?_
            intro s1 r1 h1
            exact consChar_length _ _ _ _ _ h1 (hrec rest 1 (by omega) (by omega) none)

theorem parseString_length (s str r : List Char) (h : parseString s = some (str, r)) :
    r.length ≤ s.length :=
  parseStringAux_length_aux s.length s (Nat.le_refl _) none str r h

theorem parseValue_adequate_step (F : Nat) (ihM : Adequate parseMembers F)
    (ihE : Adequate parseElements F) : Adequate parseValue (F + 1) := by
  intro d s v r h
  cases s with
  | nil => rw [parseValue] at h; cases h
  | cons c rest =>
    rw [parseValue] at h
    have hsl := skipSpace_length rest
    by_cases hc1 : c = '{'
    · rw [if_pos hc1] at h
      by_cases hd : d + 1 > maxNestingDepth
      · rw [if_pos hd] at h; cases h
      · rw [if_neg hd] at h
        cases hsk : skipSpace rest with
        | nil => rw [hsk] at h; cases h
        | cons c1 rest1 =>
          rw [hsk] at h hsl
          dsimp only at h
          simp only [List.length_cons] at hsl ⊢
          by_cases hc2 : c1 = '}'
          · rw [if_pos hc2] at h
            simp only [Option.some.injEq, Prod.mk.injEq] at h
            obtain ⟨hv, hr⟩ := h
            subst hv; subst hr
            refine ⟨by omega, ?_⟩
            intro f hf
            obtain ⟨f0, rfl⟩ : ∃ f0, f = f0 + 1 := ⟨f - 1, by omega⟩
            rw [parseValue, if_pos hc1, if_neg hd, hsk]
            dsimp only
            rw [if_pos hc2]
          · rw [if_neg hc2] at h
            cases hm : parseMembers F (d + 1) (c1 :: rest1) with
            | none => rw [hm] at h; cases h
            | some pr =>
              obtain ⟨ms, r1⟩ := pr
              rw [hm] at h
              simp only [Option.some.injEq, Prod.mk.injEq] at h
              obtain ⟨hv, hr⟩ := h
              subst hv; subst hr
              obtain ⟨hl, had⟩ := ihM _ _ _ _ hm
              simp only [List.length_cons] at hl had
              refine ⟨by omega, ?_⟩
              intro f hf
              obtain ⟨f0, rfl⟩ : ∃ f0, f = f0 + 1 := ⟨f - 1, by omega⟩
              rw [parseValue, if_pos hc1, if_neg hd, hsk]
              dsimp only
              rw [if_neg hc2, had f0 (by omega)]
    · rw [if_neg hc1] at h
      by_cases hc3 : c = '['
      · rw [if_pos hc3] at h
        by_cases hd : d + 1 > maxNestingDepth
        · rw [if_pos hd] at h; cases h
        · rw [if_neg hd] at h
          cases hsk : skipSpace rest with
          | nil => rw [hsk] at h; cases h
          | cons c1 rest1 =>
            rw [hsk] at h hsl
            dsimp only at h
            simp only [List.length_cons] at hsl ⊢
            by_cases hc2 : c1 = ']'
            · rw [if_pos hc2] at h
              simp only [Option.some.injEq, Prod.mk.injEq] at h
              obtain ⟨hv, hr⟩ := h
              subst hv; subst hr
              refine ⟨by omega, ?_⟩
              intro f hf
              obtain ⟨f0, rfl⟩ : ∃ f0, f = f0 + 1 := ⟨f - 1, by omega⟩
              rw [parseValue, if_neg hc1, if_pos hc3, if_neg hd, hsk]
              dsimp only
              rw [if_pos hc2]
            · rw [if_neg hc2] at h
              cases hm : parseElements F (d + 1) (c1 :: rest1) with
              | none => rw [hm] at h; cases h
              | some pr =>
                obtain ⟨vs, r1⟩ := pr
                rw [hm] at h
                simp only [Option.some.injEq, Prod.mk.injEq] at h
                obtain ⟨hv, hr⟩ := h
                subst hv; subst hr
                obtain ⟨hl, had⟩ := ihE _ _ _ _ hm
                simp only [List.length_cons] at hl had
                refine ⟨by omega, ?_⟩
                intro f hf
                obtain ⟨f0, rfl⟩ : ∃ f0, f = f0 + 1 := ⟨f - 1, by omega⟩
                rw [parseValue, if_neg hc1, if_pos hc3, if_neg hd, hsk]
                dsimp only
                rw [if_neg hc2, had f0 (by omega)]
      · rw [if_neg hc3] at h
        have hrest : r.length ≤ (c :: rest).length := by
          simp only [List.length_cons]
          by_cases hc4 : c = '"'
          · rw [if_pos hc4] at h
            cases hp : parseString rest with
            | none => rw [hp] at h; cases h
            | some pr =>
              obtain ⟨str, r1⟩ := pr
              rw [hp] at h
              simp only [Option.some.injEq, Prod.mk.injEq] at h
              have := parseString_length _ _ _ hp
              rw [← h.2]; omega
          · rw [if_neg hc4] at h
            by_cases hc5 : c = 't'
            · rw [if_pos hc5] at h
              cases hp : dropPrefix "rue".toList rest with
              | none => rw [hp] at h; cases h
              | some r1 =>
                rw [hp] at h
                simp only [Option.some.injEq, Prod.mk.injEq] at h
                have := dropPrefix_length _ _ _ hp
                rw [← h.2]; omega
            · rw [if_neg hc5] at h
              by_cases hc6 : c = 'f'
              · rw [if_pos hc6] at h
                cases hp : dropPrefix "alse".toList rest with
                | none => rw [hp] at h; cases h
                | some r1 =>
                  rw [hp] at h
                  simp only [Option.some.injEq, Prod.mk.injEq] at h
                  have := dropPrefix_length _ _ _ hp
                  rw [← h.2]; omega
              · rw [if_neg hc6] at h
                by_cases hc7 : c = 'n'
                · rw [if_pos hc7] at h
                  cases hp : dropPrefix "ull".toList rest with
                  | none => rw [hp] at h; cases h
                  | some r1 =>
                    rw [hp] at h
                    simp only [Option.some.injEq, Prod.mk.injEq] at h
                    have := dropPrefix_length _ _ _ hp
                    rw [← h.2]; omega
                · rw [if_neg hc7] at h
                  cases hp : scanNumber (c :: rest) with
                  | none => rw [hp] at h; cases h
                  | some r1 =>
                    rw [hp] at h
                    simp only [Option.some.injEq, Prod.mk.injEq] at h
                    have := scanNumber_length _ _ hp
                    simp only [List.length_cons] at this
                    rw [← h.2]; omega
        refine ⟨hrest, ?_⟩
        intro f hf
        obtain ⟨f0, rfl⟩ : ∃ f0, f = f0 + 1 := ⟨f - 1, by omega⟩
        rw [parseValue, if_neg hc1, if_neg hc3]
        exact h

theorem parseMembers_adequate_step (F : Nat) (ihV : Adequate parseValue F)
    (ihM : Adequate parseMembers F) : Adequate parseMembers (F + 1) := by
  intro d s ms r h
  cases s with
  | nil => rw [parseMembers] at h; cases h
  | cons q rest =>
    rw [parseMembers] at h
    by_cases hq : q = '"'
    · rw [if_pos hq] at h
      cases hp : parseString rest with
      | none => rw [hp] at h; cases h
      | some pr =>
        obtain ⟨key, r1⟩ := pr
        rw [hp] at h
        dsimp only at h
        have hl1 := parseString_length _ _ _ hp
        have hs1 := skipSpace_length r1
        cases hsk : skipSpace r1 with
        | nil => rw [hsk] at h; cases h
        | cons c r2 =>
          rw [hsk] at h hs1
          dsimp only at h
          have hs2 := skipSpace_length r2
          simp only [List.length_cons] at hs1 ⊢
          by_cases hc : c = ':'
          · rw [if_pos hc] at h
            cases hv : parseValue F d (skipSpace r2) with
            | none => rw [hv] at h; cases h
            | some pv =>
              obtain ⟨v, r3⟩ := pv
              rw [hv] at h
              dsimp only at h
              obtain ⟨hl3, hadV⟩ := ihV _ _ _ _ hv
              have hs3 := skipSpace_length r3
              cases hsk3 : skipSpace r3 with
              | nil => rw [hsk3] at h; cases h
              | cons e r4 =>
                rw [hsk3] at h hs3
                dsimp only at h
                have hs4 := skipSpace_length r4
                simp only [List.length_cons] at hs3
                by_cases he : e = ','
                · rw [if_pos he] at h
                  cases hm : parseMembers F d (skipSpace r4) with
                  | none => rw [hm] at h; cases h
                  | some pm =>
                    obtain ⟨ms1, r5⟩ := pm
                    rw [hm] at h
                    simp only [Option.some.injEq, Prod.mk.injEq] at h
                    obtain ⟨hms, hr⟩ := h
                    subst hms; subst hr
                    obtain ⟨hl5, hadM⟩ := ihM _ _ _ _ hm
                    refine ⟨by omega, ?_⟩
                    intro f hf
                    obtain ⟨f0, rfl⟩ : ∃ f0, f = f0 + 1 := ⟨f - 1, by omega⟩
                    rw [parseMembers, if_pos hq, hp]
                    dsimp only
                    rw [hsk]
                    dsimp only
                    rw [if_pos hc, hadV f0 (by omega)]
                    dsimp only
                    rw [hsk3]
                    dsimp only
                    rw [if_pos he, hadM f0 (by omega)]
                · rw [if_neg he] at h
                  by_cases he2 : e = '}'
                  · rw [if_pos he2] at h
                    simp only [Option.some.injEq, Prod.mk.injEq] at h
                    obtain ⟨hms, hr⟩ := h
                    subst hms; subst hr
                    refine ⟨by omega, ?_⟩
                    intro f hf
                    obtain ⟨f0, rfl⟩ : ∃ f0, f = f0 + 1 := ⟨f - 1, by omega⟩
                    rw [parseMembers, if_pos hq, hp]
                    dsimp only
                    rw [hsk]
                    dsimp only
                    rw [if_pos hc, hadV f0 (by omega)]
                    dsimp only
                    rw [hsk3]
                    dsimp only
                    rw [if_neg he, if_pos he2]
                  · rw [if_neg he2] at h; cases h
          · rw [if_neg hc] at h; cases h
    · rw [if_neg hq] at h; cases h

theorem parseElements_adequate_step (F : Nat) (ihV : Adequate parseValue F)
    (ihE : Adequate parseElements F) : Adequate parseElements (F + 1) := by
  intro d s vs r h
  rw [parseElements] at h
  cases hv : parseValue F d s with
  | none => rw [hv] at h; cases h
  | some pv =>
    obtain ⟨v, r1⟩ := pv
    rw [hv] at h
    dsimp only at h
    obtain ⟨hl1, hadV⟩ := ihV _ _ _ _ hv
    have hs1 := skipSpace_length r1
    cases hsk : skipSpace r1 with
    | nil => rw [hsk] at h; cases h
    | cons e r2 =>
      rw [hsk] at h hs1
      dsimp only at h
      have hs2 := skipSpace_length r2
      simp only [List.length_cons] at hs1
      by_cases he : e = ','
      · rw [if_pos he] at h
        cases hm : parseElements F d (skipSpace r2) with
        | none => rw [hm] at h; cases h
        | some pm =>
          obtain ⟨vs1, r3⟩ := pm
          rw [hm] at h
          simp only [Option.some.injEq, Prod.mk.injEq] at h
          obtain ⟨hvs, hr⟩ := h
          subst hvs; subst hr
          obtain ⟨hl3, hadE⟩ := ihE _ _ _ _ hm
          refine ⟨by omega, ?_⟩
          intro f hf
          obtain ⟨f0, rfl⟩ : ∃ f0, f = f0 + 1 := ⟨f - 1, by omega⟩
          rw [parseElements, hadV f0 (by omega)]
          dsimp only
          rw [hsk]
          dsimp only
          rw [if_pos he, hadE f0 (by omega)]
      · rw [if_neg he] at h
        by_cases he2 : e = ']'
        · rw [if_pos he2] at h
          simp only [Option.some.injEq, Prod.mk.injEq] at h
          obtain ⟨hvs, hr⟩ := h
          subst hvs; subst hr
          refine ⟨by omega, ?_⟩
          intro f hf
          obtain ⟨f0, rfl⟩ : ∃ f0, f = f0 + 1 := ⟨f - 1, by omega⟩
          rw [parseElements, hadV f0 (by omega)]
          dsimp only
          rw [hsk]
          dsimp only
          rw [if_neg he, if_pos he2]
        · rw [if_neg he2] at h; cases h

theorem parse_adequate (F : Nat) :
    Adequate parseValue F ∧ Adequate parseMembers F ∧ Adequate parseElements F := by
  induction F with
  | zero =>
    refine ⟨?_, ?_, ?_⟩
    · intro d s x r h; rw [parseValue] at h; cases h
    · intro d s x r h; rw [parseMembers] at h; cases h
    · intro d s x r h; rw [parseElements] at h; cases h
  | succ F ih =>
    obtain ⟨ihV, ihM, ihE⟩ := ih
    exact ⟨parseValue_adequate_step F ihM ihE, parseMembers_adequate_step F ihV ihM,
      parseElements_adequate_step F ihV ihE⟩

/-- The fuel that `parse` gives to `parseValue` is enough: a text that is read
as a value with some amount of fuel is read as that value by `parse`. -/
theorem parse_fuel_enough (F : Nat) (data : List Char) (v : Value) (rest : List Char)
    (h : parseValue F 0 (skipSpace data) = some (v, rest)) (hrest : skipSpace rest = []) :
    parse data = some v := by
  obtain ⟨hl, had⟩ := (parse_adequate F).1 _ _ _ _ h
  have hs := skipSpace_length data
  unfold parse
  rw [had (data.length + 1) (by omega)]
  simp [hrest]

end json
namespace cbor

theorem readPayload_append (p rest : List Byte) (h : p.length < 2 ^ 63) :
    readPayload p.length (p ++ rest) = .ok (Item.byteString p) := by
  unfold readPayload
  rw [if_neg (by omega), if_neg (by simp)]
  simp

theorem head_small : ∀ n, n ≤ 23 →
    (base64.toByte (cborTypeByteString ||| n) ≠ 0xf6 ∧
      base64.toByte (cborTypeByteString ||| n) ≠ 0xf7) ∧
    (base64.toByte (cborTypeByteString ||| n)).val >>> 5 = 2 ∧
    (base64.toByte (cborTypeByteString ||| n)).val &&& 0x1f = n := by
  decide

theorem readArgument_1 (n : Nat) (s : List Byte) (h : n ≤ 0xff) :
    readArgument 1 (base64.toByte n :: s) = some (n, s) := by
  simp only [readArgument, base64.toByte_val]
  congr 2; omega

theorem readArgument_2 (n : Nat) (s : List Byte) (h : n ≤ 0xffff) :
    readArgument 2 (base64.toByte (n >>> 8) :: base64.toByte n :: s) = some (n, s) := by
  simp only [readArgument, base64.toByte_val, Nat.shiftRight_eq_div_pow]
  congr 2; omega

theorem readArgument_4 (n : Nat) (s : List Byte) (h : n ≤ 0xffffffff) :
    readArgument 4 (base64.toByte (n >>> 24) :: base64.toByte (n >>> 16) ::
      base64.toByte (n >>> 8) :: base64.toByte n :: s) = some (n, s) := by
  simp only [readArgument, base64.toByte_val, Nat.shiftRight_eq_div_pow]
  congr 2; omega

theorem readArgument_8 (n : Nat) (s : List Byte) (h : n < 2 ^ 64) :
    readArgument 8 (base64.toByte (n >>> 56) :: base64.toByte (n >>> 48) ::
      base64.toByte (n >>> 40) :: base64.toByte (n >>> 32) :: base64.toByte (n >>> 24) ::
      base64.toByte (n >>> 16) :: base64.toByte (n >>> 8) :: base64.toByte n :: s) =
      some (n, s) := by
  simp only [readArgument, base64.toByte_val, Nat.shiftRight_eq_div_pow]
  congr 2; omega

/-- The decoder finds the payload in what the encoder writes for a byte
string, whatever follows it in the stream. -/
theorem nextItem_encode (p rest : List Byte) (h : p.length < 2 ^ 63) :
    nextItem (encodeHead cborTypeByteString p.length ++ p ++ rest) =
      some (.ok (Item.byteString p)) := by
  unfold encodeHead
  split
  · rename_i h1
    obtain ⟨⟨ha, hb⟩, hc, hd⟩ := head_small p.length h1
    simp only [List.cons_append, List.nil_append, nextItem]
    rw [if_neg (by simp [ha, hb]), if_pos hc, hd, if_pos (by omega),
      readPayload_append p rest h]
  · split
    · rename_i h1 h2
      simp only [List.cons_append, List.nil_append, nextItem]
      rw [if_neg (by decide), if_pos (by decide), if_neg (by decide), if_pos (by decide)]
      simp only [readSized, readArgument_1 _ _ h2, readPayload_append p rest h]
    · split
      · rename_i h1 h2 h3
        simp only [List.cons_append, List.nil_append, nextItem]
        rw [if_neg (by decide), if_pos (by decide), if_neg (by decide), if_neg (by decide),
          if_pos (by decide)]
        simp only [readSized, readArgument_2 _ _ h3, readPayload_append p rest h]
      · split
        · rename_i h1 h2 h3 h4
          simp only [List.cons_append, List.nil_append, nextItem]
          rw [if_neg (by decide), if_pos (by decide), if_neg (by decide), if_neg (by decide),
            if_neg (by decide), if_pos (by decide)]
          simp only [readSized, readArgument_4 _ _ h4, readPayload_append p rest h]
        · simp only [List.cons_append, List.nil_append, nextItem]
          rw [if_neg (by decide), if_pos (by decide), if_neg (by decide), if_neg (by decide),
            if_neg (by decide), if_neg (by decide), if_pos (by decide)]
          have h8 : p.length < 2 ^ 64 := by omega
          simp only [readSized, readArgument_8 p.length _ h8, readPayload_append p rest h]

end cbor
/-! ## The claims -/

/-- C1. Text round trip for Bytes: for every payload `p` that is not nil (the
one of length zero included) `Bytes.MarshalJSON` returns a text and no error,
and `Bytes.UnmarshalJSON` on that text returns no error and leaves the
receiver equal to `p`, whatever the receiver `prior` held before. -/
theorem C1_bytes_text_round_trip (p : List Byte) (prior : Bytes) :
    ∃ text, Bytes.MarshalJSON (Bytes.mk p) = (some text, none) ∧
      Bytes.UnmarshalJSON prior text = (Bytes.mk p, none) := by
  refine ⟨json.Marshal "$bytes".toList (base64.EncodeToString p), ?_, ?_⟩
  · simp [Bytes.MarshalJSON, Bytes.bytes, Bytes.elems]
  · simp [Bytes.UnmarshalJSON, json.Unmarshal_Marshal, base64.decode_encode]

/-- C2. Binary round trip for Bytes: for every payload `p` that is not nil (the
one of length zero included; a Go slice has fewer than 2^63 elements), held
behind a pointer that is not nil, `MarshalCBOR` writes to a buffer without
error, and `Bytes.UnmarshalCBOR` reading the bytes of the buffer returns no
error and leaves the receiver equal to `p`. -/
theorem C2_bytes_binary_round_trip (p : List Byte) (prior : Bytes) (hlen : p.length < 2 ^ 63) :
    ∃ w, Bytes.MarshalCBOR (some (Bytes.mk p)) Writer.buffer = (w, none) ∧
      Bytes.UnmarshalCBOR prior w.buf = some (Bytes.mk p, none) := by
  refine ⟨{ buf := cbor.encodeHead cbor.cborTypeByteString p.length ++ p, err := none }, ?_, ?_⟩
  · simp [Bytes.MarshalCBOR, cbor.CTAP2EncMode, cbor.EncodeBytes, cbor.encodeByteString,
      Bytes.bytes, Writer.Write, Writer.buffer]
  · have h := cbor.nextItem_encode p [] hlen
    rw [List.append_nil] at h
    simp [Bytes.UnmarshalCBOR, h]

/-- Witness of C2 at the payload of the tests and a nil receiver. -/
theorem C2_bytes_binary_round_trip_witness :
    (bytesOf TEST_BYTES_STRING).length < 2 ^ 63 ∧
      ∃ w, Bytes.MarshalCBOR (some (Bytes.mk (bytesOf TEST_BYTES_STRING))) Writer.buffer =
          (w, none) ∧
        Bytes.UnmarshalCBOR Bytes.nil w.buf = some (Bytes.mk (bytesOf TEST_BYTES_STRING), none) :=
  ⟨by decide, C2_bytes_binary_round_trip (bytesOf TEST_BYTES_STRING) Bytes.nil (by decide)⟩

/-- C3. Text round trip for CIDLink: for every string `s` that the parser of
the identifier library accepts, with `link = CIDLink{parse(s)}`,
`CIDLink.MarshalJSON(link)` returns a text and no error, `CIDLink.UnmarshalJSON`
on that text returns no error, and the `String()` of the decoded link is the
`String()` of `parse(s)`.  The library is any one whose parser returns defined
identifiers only and accepts the canonical string of what it returns, giving an
identifier with that same canonical string. -/
theorem C3_cidlink_text_round_trip (lib : CidLib) (s : List Char) (c : Cid) (prior : CIDLink)
    (hdefined : ∀ s c, lib.Decode s = .ok c → c.Defined = true)
    (hcanonical : ∀ s c, lib.Decode s = .ok c →
      ∃ c', lib.Decode (lib.toString c) = .ok c' ∧ lib.toString c' = lib.toString c)
    (hparse : lib.Decode s = .ok c) :
    ∃ text decoded, CIDLink.MarshalJSON lib { link := c } = (some text, none) ∧
      CIDLink.UnmarshalJSON lib prior text = (decoded, none) ∧
      decoded.String lib = lib.toString c := by
  obtain ⟨c', hc', hs⟩ := hcanonical s c hparse
  refine ⟨json.Marshal "$link".toList (lib.toString c), { prior with link := c' }, ?_, ?_, ?_⟩
  · simp [CIDLink.MarshalJSON, hdefined s c hparse]
  · simp [CIDLink.UnmarshalJSON, json.Unmarshal_Marshal, hc']
  · simp [CIDLink.String, hs]

theorem testLib_defined (s : List Char) (c : Cid) (h : testLib.Decode s = .ok c) :
    c.Defined = true := by
  simp only [testLib] at h
  split at h
  · cases h; decide
  · cases h

theorem testLib_canonical (s : List Char) (c : Cid) (_h : testLib.Decode s = .ok c) :
    ∃ c', testLib.Decode (testLib.toString c) = .ok c' ∧
      testLib.toString c' = testLib.toString c :=
  ⟨testCid, by simp [testLib], rfl⟩

/-- Witness of C3 at `TEST_CID` and a receiver that holds the zero value. -/
theorem C3_cidlink_text_round_trip_witness :
    testLib.Decode TEST_CID.toList = .ok testCid ∧
      ∃ text decoded, CIDLink.MarshalJSON testLib { link := testCid } = (some text, none) ∧
        CIDLink.UnmarshalJSON testLib { link := { str := [] } } text = (decoded, none) ∧
        decoded.String testLib = testLib.toString testCid :=
  ⟨by simp [testLib], C3_cidlink_text_round_trip testLib TEST_CID.toList testCid
    { link := { str := [] } } testLib_defined testLib_canonical (by simp [testLib])⟩

/-- C4. Absent reference in binary form: for a nil `*Bytes` and for a nil
`*CIDLink`, `MarshalCBOR` on a writer that accepts the write returns no error,
and what the writer receives is the one byte 0xf6 and nothing else. -/
theorem C4_nil_pointer_writes_null (w : Writer) (haccept : w.err = none) :
    Bytes.MarshalCBOR none w = ({ w with buf := w.buf ++ [0xf6] }, none) ∧
      CIDLink.MarshalCBOR none w = ({ w with buf := w.buf ++ [0xf6] }, none) := by
  simp [Bytes.MarshalCBOR, CIDLink.MarshalCBOR, cbor.CTAP2EncMode, Writer.Write, haccept,
    CBOR_NULL]

/-- Witness of C4 at an empty buffer. -/
theorem C4_nil_pointer_writes_null_witness :
    Writer.buffer.err = none ∧
      Bytes.MarshalCBOR none Writer.buffer = ({ buf := [0xf6], err := none }, none) ∧
      CIDLink.MarshalCBOR none Writer.buffer = ({ buf := [0xf6], err := none }, none) :=
  ⟨rfl, C4_nil_pointer_writes_null Writer.buffer rfl⟩

/-- C5. `Bytes.MarshalJSON` returns an error if and only if the value is nil;
when it returns an error the data it returns is nil; and the value of length
zero that is not nil is encoded without error. -/
theorem C5_bytes_marshal_json_error_iff_nil (b : Bytes) :
    ((Bytes.MarshalJSON b).2 ≠ none ↔ b = Bytes.nil) ∧
      ((Bytes.MarshalJSON b).2 ≠ none → (Bytes.MarshalJSON b).1 = none) ∧
      Bytes.MarshalJSON (Bytes.mk []) = (some "\x7b\"$bytes\":\"\"\x7d".toList, none) := by
  refine ⟨?_, ?_, by decide⟩
  · cases b <;> simp [Bytes.MarshalJSON]
  · cases b <;> simp [Bytes.MarshalJSON]

/-- Witness of C5 at the nil value. -/
theorem C5_bytes_marshal_json_error_iff_nil_witness :
    (Bytes.MarshalJSON Bytes.nil).2 ≠ none ∧ (Bytes.MarshalJSON Bytes.nil).1 = none :=
  ⟨by decide, (C5_bytes_marshal_json_error_iff_nil Bytes.nil).2.1 (by decide)⟩

/-- C6. A link that is not defined is never encoded: `CIDLink.MarshalJSON` on
it returns an error and no data, and `CIDLink.MarshalCBOR` through a pointer
to it returns an error and leaves the writer as it was, with no byte
written. -/
theorem C6_undefined_link_not_encoded (lib : CidLib) (c : CIDLink) (w : Writer)
    (hundef : c.link.Defined = false) :
    CIDLink.MarshalJSON lib c = (none, some (Error.errorf "tried to marshal nil cid-link")) ∧
      CIDLink.MarshalCBOR (some c) w =
        (w, some (Error.errorf "tried to marshal nil cid-link")) := by
  simp [CIDLink.MarshalJSON, CIDLink.MarshalCBOR, cbor.CTAP2EncMode, hundef]

/-- Witness of C6 at the zero value of `CIDLink` and an empty buffer. -/
theorem C6_undefined_link_not_encoded_witness :
    ({ link := { str := [] } } : CIDLink).link.Defined = false ∧
      CIDLink.MarshalJSON testLib { link := { str := [] } } =
        (none, some (Error.errorf "tried to marshal nil cid-link")) ∧
      CIDLink.MarshalCBOR (some { link := { str := [] } }) Writer.buffer =
        (Writer.buffer, some (Error.errorf "tried to marshal nil cid-link")) :=
  ⟨by decide, C6_undefined_link_not_encoded testLib { link := { str := [] } } Writer.buffer
    (by decide)⟩

theorem testLib_cast_defined (b : List Byte) (c : Cid) (h : testLib.Cast b = .ok c) :
    c.Defined = true := by
  simp only [testLib] at h
  split at h
  · cases h; decide
  · cases h

/-- C7, counterexample. On the stream that holds only the byte 0xf6, and on a
receiver that holds the zero value, `CIDLink.UnmarshalCBOR` returns no error
and the receiver's identifier is not defined afterwards.  The same holds on
the stream that holds only the byte 0xa0, the map with no pair. -/
theorem C7_counterexample :
    CIDLink.UnmarshalCBOR testLib { link := { str := [] } } [0xf6] =
        some ({ link := { str := [] } }, none) ∧
      ({ link := { str := [] } } : CIDLink).link.Defined = false ∧
      CIDLink.UnmarshalCBOR testLib { link := { str := [] } } [0xa0] =
        some ({ link := { str := [] } }, none) := by
  decide

/-- C7, amended. On a stream whose first item is a byte string of definite
length, `CIDLink.UnmarshalCBOR` returns what the library's `Cast` says of the
payload: an error with the receiver as it was, or no error and the identifier
that `Cast` returned, so that the receiver's identifier is defined after every
call that returns no error (`Cast` returns defined identifiers only).  On
every stream whose first item is null (0xf6), undefined (0xf7) or the map with
no pair (0xa0), it returns no error and leaves the receiver as it was,
whatever it held. -/
theorem C7_byte_string_defined_null_unchanged (lib : CidLib) (c : CIDLink)
    (r rest : List Byte)
    (hcast : ∀ b x, lib.Cast b = .ok x → x.Defined = true) :
    (∀ payload, cbor.nextItem r = some (.ok (cbor.Item.byteString payload)) →
        CIDLink.UnmarshalCBOR lib c r =
            (match lib.Cast payload with
              | .ok x => some ({ link := x }, none)
              | .error e => some (c, some e)) ∧
          ∀ decoded, CIDLink.UnmarshalCBOR lib c r = some (decoded, none) →
            lib.Cast payload = .ok decoded.link ∧ decoded.link.Defined = true) ∧
      CIDLink.UnmarshalCBOR lib c (0xf6 :: rest) = some (c, none) ∧
      CIDLink.UnmarshalCBOR lib c (0xf7 :: rest) = some (c, none) ∧
      CIDLink.UnmarshalCBOR lib c (0xa0 :: rest) = some (c, none) := by
  refine ⟨?_, ?_, ?_, ?_⟩
  · intro payload hitem
    have heq : CIDLink.UnmarshalCBOR lib c r =
        (match lib.Cast payload with
          | .ok x => some ({ link := x }, none)
          | .error e => some (c, some e)) := by
      unfold CIDLink.UnmarshalCBOR
      rw [hitem]
      cases hc : lib.Cast payload with
      | error e => simp [Cid.UnmarshalBinary, hc]
      | ok x => simp [Cid.UnmarshalBinary, hc]
    refine ⟨heq, ?_⟩
    intro decoded hok
    rw [heq] at hok
    cases hc : lib.Cast payload with
    | error e => rw [hc] at hok; simp at hok
    | ok x =>
      rw [hc] at hok
      simp only [Option.some.injEq, Prod.mk.injEq, and_true] at hok
      rw [← hok]
      exact ⟨rfl, hcast payload x hc⟩
  · simp [CIDLink.UnmarshalCBOR, cbor.nextItem]
  · simp [CIDLink.UnmarshalCBOR, cbor.nextItem]
  · have hn : cbor.nextItem (0xa0 :: rest) = none := by
      simp only [cbor.nextItem]
      rw [if_neg (by decide), if_neg (by decide)]
    simp [CIDLink.UnmarshalCBOR, hn, cbor.startsWithEmptyMap]

/-- Witness of C7 (amended) at the byte string of the identifier of the tests,
on a receiver that holds the zero value. -/
theorem C7_byte_string_defined_null_unchanged_witness :
    cbor.nextItem (cbor.encodeHead cbor.cborTypeByteString testCid.str.length ++ testCid.str) =
        some (.ok (cbor.Item.byteString testCid.str)) ∧
      CIDLink.UnmarshalCBOR testLib { link := { str := [] } }
          (cbor.encodeHead cbor.cborTypeByteString testCid.str.length ++ testCid.str) =
        some ({ link := testCid }, none) ∧
      (testLib.Cast testCid.str = .ok ({ link := testCid } : CIDLink).link ∧
        ({ link := testCid } : CIDLink).link.Defined = true) ∧
      CIDLink.UnmarshalCBOR testLib { link := { str := [] } } [0xf6] =
        some ({ link := { str := [] } }, none) :=
  ⟨by decide, by decide,
    ((C7_byte_string_defined_null_unchanged testLib { link := { str := [] } }
      (cbor.encodeHead cbor.cborTypeByteString testCid.str.length ++ testCid.str) []
      testLib_cast_defined).1 testCid.str (by decide)).2 { link := testCid } (by decide),
    (C7_byte_string_defined_null_unchanged testLib { link := { str := [] } } [] []
      testLib_cast_defined).2.1⟩

namespace json

theorem assign_no_match (name : List Char) (ms : List (List Char × Value))
    (st : List Char × Option Error)
    (h : ∀ kv ∈ ms, fieldMatches name kv.1 = false) : assign name ms st = st := by
  induction ms generalizing st with
  | nil => cases st; rfl
  | cons kv rest ih =>
    obtain ⟨key, v⟩ := kv
    obtain ⟨field, saved⟩ := st
    have hk : fieldMatches name key = false := h (key, v) (List.mem_cons_self _ _)
    rw [assign.eq_def]
    simp only [hk, Bool.false_eq_true, if_false]
    exact ih _ (fun kv hkv => h kv (List.mem_cons_of_mem _ hkv))

end json

/-- C8, counterexample. On the objects `{}` and `{"other":"dGVzdA"}`, which
have no `$bytes` key, `Bytes.UnmarshalJSON` returns no error and stores the
payload of length zero. -/
theorem C8_counterexample :
    Bytes.UnmarshalJSON Bytes.nil "\x7b\x7d".toList = (Bytes.mk [], none) ∧
      Bytes.UnmarshalJSON Bytes.nil "\x7b\"other\":\"dGVzdA\"\x7d".toList =
        (Bytes.mk [], none) := by
  decide

/-- C8, amended. For every JSON object in which no key selects the field
`$bytes` (neither exactly nor after case folding), `Bytes.UnmarshalJSON`
returns no error and stores the payload of length zero, which is not nil. -/
theorem C8_missing_marker_decodes_empty (data : List Char) (ms : List (List Char × json.Value))
    (prior : Bytes)
    (hparse : json.parse data = some (json.Value.object ms))
    (hmissing : ∀ kv ∈ ms, json.fieldMatches "$bytes".toList kv.1 = false) :
    Bytes.UnmarshalJSON prior data = (Bytes.mk [], none) := by
  unfold Bytes.UnmarshalJSON json.Unmarshal
  rw [hparse]
  simp only [json.decodeValue, json.assign_no_match _ ms _ hmissing]
  rfl

/-- Witness of C8 (amended) at the object `{"other":"dGVzdA"}`. -/
theorem C8_missing_marker_decodes_empty_witness :
    json.parse "\x7b\"other\":\"dGVzdA\"\x7d".toList =
        some (json.Value.object [("other".toList, json.Value.string "dGVzdA".toList)]) ∧
      Bytes.UnmarshalJSON Bytes.nil "\x7b\"other\":\"dGVzdA\"\x7d".toList =
        (Bytes.mk [], none) :=
  ⟨by rfl, C8_missing_marker_decodes_empty _
    [("other".toList, json.Value.string "dGVzdA".toList)] Bytes.nil (by rfl)
    (by intro kv hkv; simp only [List.mem_singleton] at hkv; subst hkv; decide)⟩

namespace json

theorem assign_saved (name : List Char) (ms : List (List Char × Value)) (field : List Char)
    (e : Error) : (assign name ms (field, some e)).2 = some e := by
  induction ms generalizing field with
  | nil => rfl
  | cons kv rest ih =>
    obtain ⟨key, v⟩ := kv
    rw [assign.eq_def]
    simp only
    split
    · split <;> simp [ih]
    · exact ih _

theorem assign_mismatch (name : List Char) (ms : List (List Char × Value)) (field : List Char)
    (key : List Char) (v : Value) (hmem : (key, v) ∈ ms) (hkey : fieldMatches name key = true)
    (hs : v.isString = false) (hn : v.isNull = false) :
    (assign name ms (field, none)).2 = some Error.jsonUnmarshalType := by
  induction ms generalizing field with
  | nil => cases hmem
  | cons kv rest ih =>
    obtain ⟨key1, v1⟩ := kv
    rw [assign.eq_def]
    simp only
    rcases List.mem_cons.mp hmem with heq | hrest
    · cases heq
      rw [if_pos hkey]
      cases v <;> simp_all [Value.isString, Value.isNull, assign_saved]
    · split
      · split
        · exact ih _ hrest
        · exact ih _ hrest
        · simp [assign_saved]
      · exact ih _ hrest

theorem assign_null (name : List Char) (ms : List (List Char × Value))
    (st : List Char × Option Error)
    (h : ∀ kv ∈ ms, fieldMatches name kv.1 = true → kv.2 = Value.null) :
    assign name ms st = st := by
  induction ms generalizing st with
  | nil => cases st; rfl
  | cons kv rest ih =>
    obtain ⟨key, v⟩ := kv
    obtain ⟨field, saved⟩ := st
    have hrest := ih (field, saved) (fun kv hkv => h kv (List.mem_cons_of_mem _ hkv))
    rw [assign.eq_def]
    simp only
    split
    · rename_i hk
      have hv : v = Value.null := h (key, v) (List.mem_cons_self _ _) hk
      subst hv
      exact hrest
    · exact hrest

theorem Unmarshal_mismatch (name data : List Char) (ms : List (List Char × Value))
    (key : List Char) (v : Value) (hparse : parse data = some (Value.object ms))
    (hmem : (key, v) ∈ ms) (hkey : fieldMatches name key = true)
    (hs : v.isString = false) (hn : v.isNull = false) :
    Unmarshal name data = .error Error.jsonUnmarshalType := by
  have h := assign_mismatch name ms [] key v hmem hkey hs hn
  unfold Unmarshal
  rw [hparse]
  simp only [decodeValue]
  split
  · rename_i heq; rw [heq] at h; cases h
  · rename_i heq; rw [heq] at h; simp only [Option.some.injEq] at h; rw [h]

theorem Unmarshal_null (name data : List Char) (ms : List (List Char × Value))
    (hparse : parse data = some (Value.object ms))
    (h : ∀ kv ∈ ms, fieldMatches name kv.1 = true → kv.2 = Value.null) :
    Unmarshal name data = .ok [] := by
  unfold Unmarshal
  rw [hparse]
  simp only [decodeValue, assign_null name ms _ h]

end json

/-- C9, counterexample. On the object `{"$bytes":null}`, whose marker value is
not a string, `Bytes.UnmarshalJSON` returns no error and stores the payload of
length zero. -/
theorem C9_counterexample :
    json.parse "\x7b\"$bytes\":null\x7d".toList =
        some (json.Value.object [("$bytes".toList, json.Value.null)]) ∧
      Bytes.UnmarshalJSON Bytes.nil "\x7b\"$bytes\":null\x7d".toList = (Bytes.mk [], none) :=
  ⟨by rfl, by decide⟩

/-- C9, amended. For every JSON object `data`:
(1) if a member whose key selects the marker field (`$bytes`, respectively
`$link`) has a value that is a number, a boolean, an array or an object, then
`Bytes.UnmarshalJSON`, respectively `CIDLink.UnmarshalJSON`, returns the
`UnmarshalTypeError` of the JSON decoder and leaves the receiver as it was;
(2) if every member whose key selects `$link` has the value `null`, then
`CIDLink.UnmarshalJSON` returns what the parser of the identifier library
returns for the empty string, an error for a parser that rejects it;
(3) if every member whose key selects `$bytes` has the value `null`, then
`Bytes.UnmarshalJSON` returns no error and stores the payload of length
zero. -/
theorem C9_non_string_marker (lib : CidLib) (data : List Char)
    (ms : List (List Char × json.Value)) (priorB : Bytes) (priorC : CIDLink)
    (hparse : json.parse data = some (json.Value.object ms)) :
    (∀ key v, (key, v) ∈ ms → v.isString = false → v.isNull = false →
        (json.fieldMatches "$bytes".toList key = true →
          Bytes.UnmarshalJSON priorB data = (priorB, some Error.jsonUnmarshalType)) ∧
        (json.fieldMatches "$link".toList key = true →
          CIDLink.UnmarshalJSON lib priorC data = (priorC, some Error.jsonUnmarshalType))) ∧
      ((∀ kv ∈ ms, json.fieldMatches "$link".toList kv.1 = true → kv.2 = json.Value.null) →
        ∀ e, lib.Decode [] = .error e →
          CIDLink.UnmarshalJSON lib priorC data = (priorC, some e)) ∧
      ((∀ kv ∈ ms, json.fieldMatches "$bytes".toList kv.1 = true → kv.2 = json.Value.null) →
        Bytes.UnmarshalJSON priorB data = (Bytes.mk [], none)) := by
  refine ⟨?_, ?_, ?_⟩
  · intro key v hmem hs hn
    constructor
    · intro hkey
      unfold Bytes.UnmarshalJSON
      rw [json.Unmarshal_mismatch _ data ms key v hparse hmem hkey hs hn]
    · intro hkey
      unfold CIDLink.UnmarshalJSON
      rw [json.Unmarshal_mismatch _ data ms key v hparse hmem hkey hs hn]
  · intro hnull e he
    unfold CIDLink.UnmarshalJSON
    rw [json.Unmarshal_null _ data ms hparse hnull]
    simp only [he]
  · intro hnull
    simp only [Bytes.UnmarshalJSON, json.Unmarshal_null _ data ms hparse hnull]
    rfl

/-- Witness of C9 (amended) at the object `{"$bytes":5,"$link":[true]}`. -/
theorem C9_non_string_marker_witness :
    json.parse "\x7b\"$bytes\":5,\"$link\":[true]\x7d".toList =
        some (json.Value.object [("$bytes".toList, json.Value.number ['5']),
          ("$link".toList, json.Value.array [json.Value.bool true])]) ∧
      Bytes.UnmarshalJSON Bytes.nil "\x7b\"$bytes\":5,\"$link\":[true]\x7d".toList =
        (Bytes.nil, some Error.jsonUnmarshalType) ∧
      CIDLink.UnmarshalJSON testLib { link := testCid }
          "\x7b\"$bytes\":5,\"$link\":[true]\x7d".toList =
        ({ link := testCid }, some Error.jsonUnmarshalType) :=
  ⟨by rfl,
    ((C9_non_string_marker testLib _ _ Bytes.nil { link := testCid } (by rfl)).1
      "$bytes".toList (json.Value.number ['5']) (by simp) (by rfl) (by rfl)).1 (by decide),
    ((C9_non_string_marker testLib _ _ Bytes.nil { link := testCid } (by rfl)).1
      "$link".toList (json.Value.array [json.Value.bool true]) (by simp) (by rfl) (by rfl)).2
      (by decide)⟩

namespace base64

theorem decodeMap_ne_iff (c : Char) : decodeMap c ≠ 0xff ↔ c ∈ encodeStd := by
  have hlen : encodeStd.length = 64 := by decide
  unfold decodeMap
  constructor
  · intro h
    by_cases hi : List.indexOf c encodeStd < 64
    · rw [← hlen] at hi
      exact List.indexOf_lt_length.mp hi
    · rw [if_neg hi] at h
      exact absurd rfl h
  · intro h
    have hi : List.indexOf c encodeStd < 64 := by
      rw [← hlen]; exact List.indexOf_lt_length.mpr h
    rw [if_pos hi]
    omega

/-- A character that is neither of the alphabet nor a line break makes the
decoder fail, wherever it stands. -/
theorem decodeLoop_outside (s : List Char) (dbuf : List Nat)
    (h : ∃ c ∈ s, c ∉ encodeStd ∧ c ≠ '\n' ∧ c ≠ '\r') :
    decodeLoop dbuf s = .error Error.base64CorruptInput := by
  induction s generalizing dbuf with
  | nil => obtain ⟨c, hc, _⟩ := h; cases hc
  | cons c rest ih =>
    rw [decodeLoop]
    by_cases hv : decodeMap c ≠ 0xff
    · have hrest : ∃ c ∈ rest, c ∉ encodeStd ∧ c ≠ '\n' ∧ c ≠ '\r' := by
        obtain ⟨d, hd, hd1, hd2⟩ := h
        rcases List.mem_cons.mp hd with heq | hin
        · subst heq; exact absurd ((decodeMap_ne_iff d).mp hv) hd1
        · exact ⟨d, hin, hd1, hd2⟩
      rw [if_pos hv]
      split
      · rw [ih [] hrest]
      · exact ih _ hrest
    · rw [if_neg hv]
      split
      · rename_i hnl
        have hrest : ∃ c ∈ rest, c ∉ encodeStd ∧ c ≠ '\n' ∧ c ≠ '\r' := by
          obtain ⟨d, hd, hd1, hd2⟩ := h
          rcases List.mem_cons.mp hd with heq | hin
          · subst heq; rcases hnl with hnl | hnl
            · exact absurd hnl hd2.1
            · exact absurd hnl hd2.2
          · exact ⟨d, hin, hd1, hd2⟩
        exact ih _ hrest
      · rfl

/-- The decoder fails when the characters of the alphabet that are pending and
still to come are one more than a multiple of four. -/
theorem decodeLoop_residue (s : List Char) (dbuf : List Nat) (hlt : dbuf.length < 4)
    (h : (dbuf.length + (s.filter (fun c => decide (c ∈ encodeStd))).length) % 4 = 1) :
    decodeLoop dbuf s = .error Error.base64CorruptInput := by
  induction s generalizing dbuf with
  | nil =>
    simp only [List.filter_nil, List.length_nil, Nat.add_zero] at h
    rw [decodeLoop, if_pos (by omega)]
  | cons c rest ih =>
    rw [decodeLoop]
    by_cases hv : decodeMap c ≠ 0xff
    · have hin : c ∈ encodeStd := (decodeMap_ne_iff c).mp hv
      rw [List.filter_cons_of_pos (by simpa using hin), List.length_cons] at h
      rw [if_pos hv]
      split
      · rename_i h3
        rw [ih [] (by simp) (by simp only [List.length_nil]; omega)]
      · exact ih _ (by simp only [List.length_append, List.length_singleton]; omega)
          (by simp only [List.length_append, List.length_singleton]; omega)
    · have hout : c ∉ encodeStd := fun hc => hv ((decodeMap_ne_iff c).mpr hc)
      rw [List.filter_cons_of_neg (by simpa using hout)] at h
      rw [if_neg hv]
      split
      · exact ih _ hlt h
      · rfl

theorem lineBreak_decodeMap (c : Char) (h : isLineBreak c = true) : decodeMap c = 0xff := by
  simp only [isLineBreak, Bool.or_eq_true, decide_eq_true_eq] at h
  rcases h with h | h <;> subst h <;> decide

/-- The decoder gives for a string what it gives for the string without its
line breaks. -/
theorem decodeLoop_skip (s : List Char) (dbuf : List Nat) :
    decodeLoop dbuf s = decodeLoop dbuf (s.filter (fun c => !isLineBreak c)) := by
  induction s generalizing dbuf with
  | nil => rfl
  | cons c rest ih =>
    by_cases hb : isLineBreak c = true
    · rw [List.filter_cons_of_neg (by simp [hb]), decodeLoop,
        if_neg (by rw [lineBreak_decodeMap c hb]; decide)]
      have hor : c = '\n' ∨ c = '\r' := by
        simpa only [isLineBreak, Bool.or_eq_true, decide_eq_true_eq] using hb
      rw [if_pos hor]
      exact ih dbuf
    · rw [List.filter_cons_of_pos (by simp [hb]), decodeLoop, decodeLoop]
      have hnor : ¬ (c = '\n' ∨ c = '\r') := by
        simpa only [isLineBreak, Bool.or_eq_true, decide_eq_true_eq] using hb
      rw [if_neg hnor, if_neg hnor, ← ih [], ← ih (dbuf ++ [decodeMap c])]

/-- The decoder returns bytes when every character is of the alphabet or a
line break and the characters of the alphabet that are pending and still to
come are not one more than a multiple of four. -/
theorem decodeLoop_ok (s : List Char) (dbuf : List Nat) (hlt : dbuf.length < 4)
    (hall : ∀ c ∈ s, c ∈ encodeStd ∨ c = '\n' ∨ c = '\r')
    (h : (dbuf.length + (s.filter (fun c => decide (c ∈ encodeStd))).length) % 4 ≠ 1) :
    ∃ out, decodeLoop dbuf s = .ok out := by
  induction s generalizing dbuf with
  | nil =>
    simp only [List.filter_nil, List.length_nil, Nat.add_zero] at h
    rw [decodeLoop, if_neg (by omega)]
    exact ⟨_, rfl⟩
  | cons c rest ih =>
    have hrest : ∀ d ∈ rest, d ∈ encodeStd ∨ d = '\n' ∨ d = '\r' :=
      fun d hd => hall d (List.mem_cons_of_mem _ hd)
    rw [decodeLoop]
    by_cases hv : decodeMap c ≠ 0xff
    · have hin : c ∈ encodeStd := (decodeMap_ne_iff c).mp hv
      rw [List.filter_cons_of_pos (by simpa using hin), List.length_cons] at h
      rw [if_pos hv]
      split
      · rename_i h3
        obtain ⟨out, hout⟩ := ih [] (by simp) hrest (by simp only [List.length_nil]; omega)
        rw [hout]
        exact ⟨_, rfl⟩
      · exact ih _ (by simp only [List.length_append, List.length_singleton]; omega) hrest
          (by simp only [List.length_append, List.length_singleton]; omega)
    · have hout : c ∉ encodeStd := fun hc => hv ((decodeMap_ne_iff c).mpr hc)
      rw [List.filter_cons_of_neg (by simpa using hout)] at h
      rw [if_neg hv]
      have hnl : c = '\n' ∨ c = '\r' := by
        rcases hall c (List.mem_cons_self _ _) with h1 | h1
        · exact absurd h1 hout
        · exact h1
      rw [if_pos hnl]
      exact ih _ hlt hrest h

end base64

/-- C10, counterexample. The marker strings of the first two envelopes hold a
line break (`'\n'`, respectively `'\r'`), a character outside the alphabet,
and the marker string of the third one has five characters;
`Bytes.UnmarshalJSON` returns no error on any of them. -/
theorem C10_counterexample :
    (json.Unmarshal "$bytes".toList "\x7b\"$bytes\":\"dGVz\\ndCBkYXRh\"\x7d".toList =
        .ok "dGVz\ndCBkYXRh".toList ∧
      '\n' ∉ base64.encodeStd ∧
      Bytes.UnmarshalJSON Bytes.nil "\x7b\"$bytes\":\"dGVz\\ndCBkYXRh\"\x7d".toList =
        (Bytes.mk (bytesOf TEST_BYTES_STRING), none)) ∧
    (json.Unmarshal "$bytes".toList "\x7b\"$bytes\":\"dGVz\\rdCBkYXRh\"\x7d".toList =
        .ok "dGVz\rdCBkYXRh".toList ∧
      '\r' ∉ base64.encodeStd ∧
      Bytes.UnmarshalJSON Bytes.nil "\x7b\"$bytes\":\"dGVz\\rdCBkYXRh\"\x7d".toList =
        (Bytes.mk (bytesOf TEST_BYTES_STRING), none)) ∧
    (json.Unmarshal "$bytes".toList "\x7b\"$bytes\":\"AAAA\\n\"\x7d".toList =
        .ok "AAAA\n".toList ∧
      "AAAA\n".toList.length % 4 = 1 ∧
      Bytes.UnmarshalJSON Bytes.nil "\x7b\"$bytes\":\"AAAA\\n\"\x7d".toList =
        (Bytes.mk [0, 0, 0], none)) := by
  decide

/-- C10, amended. For every envelope whose `$bytes` string is `s`:
(1) if `s` holds a character that is neither of the alphabet A-Z a-z 0-9 + /
nor a line break (`'\n'`, `'\r'`), or if the number of alphabet characters of
`s` is congruent to 1 modulo 4, then `Bytes.UnmarshalJSON` returns the error of
the base64 decoder and leaves the receiver as it was;
(2) in every other case it returns no error, and the payload it stores is the
decoding of `s` without its line breaks: the decoder skips `'\n'` and `'\r'`,
which never make the decode fail. -/
theorem C10_base64_marker_decoding (data s : List Char) (prior : Bytes)
    (hjson : json.Unmarshal "$bytes".toList data = .ok s) :
    (((∃ c ∈ s, c ∉ base64.encodeStd ∧ c ≠ '\n' ∧ c ≠ '\r') ∨
        (s.filter (fun c => decide (c ∈ base64.encodeStd))).length % 4 = 1) →
      Bytes.UnmarshalJSON prior data = (prior, some Error.base64CorruptInput)) ∧
    ((∀ c ∈ s, c ∈ base64.encodeStd ∨ c = '\n' ∨ c = '\r') →
      (s.filter (fun c => decide (c ∈ base64.encodeStd))).length % 4 ≠ 1 →
      ∃ p, Bytes.UnmarshalJSON prior data = (Bytes.mk p, none) ∧
        base64.DecodeString (s.filter (fun c => !base64.isLineBreak c)) = .ok p) ∧
    base64.DecodeString s = base64.DecodeString (s.filter (fun c => !base64.isLineBreak c)) := by
  refine ⟨?_, ?_, base64.decodeLoop_skip s []⟩
  · intro hbad
    unfold Bytes.UnmarshalJSON
    rw [hjson]
    have hdec : base64.DecodeString s = .error Error.base64CorruptInput := by
      unfold base64.DecodeString
      rcases hbad with h | h
      · exact base64.decodeLoop_outside s [] h
      · exact base64.decodeLoop_residue s [] (by simp) (by simpa using h)
    simp only [hdec]
  · intro hall hres
    obtain ⟨p, hp⟩ := base64.decodeLoop_ok s [] (by simp) hall (by simpa using hres)
    refine ⟨p, ?_, ?_⟩
    · unfold Bytes.UnmarshalJSON
      rw [hjson]
      have hdec : base64.DecodeString s = .ok p := hp
      simp only [hdec]
    · unfold base64.DecodeString
      rw [← base64.decodeLoop_skip s []]
      exact hp

/-- Witness of C10 (amended): a marker string with a padding character, on a
receiver that holds the payload of the tests, and a marker string with the
two line breaks. -/
theorem C10_base64_marker_decoding_witness :
    (json.Unmarshal "$bytes".toList "\x7b\"$bytes\":\"dGVzdA==\"\x7d".toList =
        .ok "dGVzdA==".toList ∧
      Bytes.UnmarshalJSON (Bytes.mk (bytesOf TEST_BYTES_STRING))
          "\x7b\"$bytes\":\"dGVzdA==\"\x7d".toList =
        (Bytes.mk (bytesOf TEST_BYTES_STRING), some Error.base64CorruptInput)) ∧
    (json.Unmarshal "$bytes".toList "\x7b\"$bytes\":\"dGVz\\r\\ndCBkYXRh\"\x7d".toList =
        .ok "dGVz\r\ndCBkYXRh".toList ∧
      ∃ p, Bytes.UnmarshalJSON Bytes.nil "\x7b\"$bytes\":\"dGVz\\r\\ndCBkYXRh\"\x7d".toList =
          (Bytes.mk p, none) ∧
        base64.DecodeString ("dGVz\r\ndCBkYXRh".toList.filter
          (fun c => !base64.isLineBreak c)) = .ok p) :=
  ⟨⟨by decide, (C10_base64_marker_decoding _ "dGVzdA==".toList _ (by decide)).1
    (Or.inl ⟨'=', by decide, by decide, by decide, by decide⟩)⟩,
   ⟨by decide, (C10_base64_marker_decoding _ "dGVz\r\ndCBkYXRh".toList Bytes.nil
    (by decide)).2.1 (by decide) (by decide)⟩⟩

namespace base64

theorem encode_mem : ∀ i, i < 64 → encode i ∈ encodeStd := by decide

theorem EncodeToString_mem (p : List Byte) : ∀ c ∈ EncodeToString p, c ∈ encodeStd := by
  have h64 : ∀ x : Nat, encode (x % 64) ∈ encodeStd :=
    fun x => encode_mem _ (Nat.mod_lt _ (by decide))
  induction p using EncodeToString.induct with
  | case1 b0 b1 b2 rest ih =>
    intro c hc
    simp only [EncodeToString, and_63, List.mem_cons] at hc
    rcases hc with h | h | h | h | h
    · rw [h]; exact h64 _
    · rw [h]; exact h64 _
    · rw [h]; exact h64 _
    · rw [h]; exact h64 _
    · exact ih c h
  | case2 b0 b1 =>
    intro c hc
    simp only [EncodeToString, and_63, List.mem_cons, List.not_mem_nil, or_false] at hc
    rcases hc with h | h | h
    · rw [h]; exact h64 _
    · rw [h]; exact h64 _
    · rw [h]; exact h64 _
  | case3 b0 =>
    intro c hc
    simp only [EncodeToString, and_63, List.mem_cons, List.not_mem_nil, or_false] at hc
    rcases hc with h | h
    · rw [h]; exact h64 _
    · rw [h]; exact h64 _
  | case4 => intro c hc; simp [EncodeToString] at hc

theorem EncodeToString_length (p : List Byte) :
    (EncodeToString p).length = (4 * p.length + 2) / 3 := by
  induction p using EncodeToString.induct with
  | case1 b0 b1 b2 rest ih =>
    simp only [EncodeToString, List.length_cons, ih]; omega
  | case2 b0 b1 => simp [EncodeToString]
  | case3 b0 => simp [EncodeToString]
  | case4 => simp [EncodeToString]

end base64

namespace json

theorem escapeChar_alphabet : ∀ c ∈ base64.encodeStd, escapeChar c = [c] := by decide

theorem escape_plain (s : List Char) (h : ∀ c ∈ s, escapeChar c = [c]) : escape s = s := by
  induction s with
  | nil => rfl
  | cons c rest ih =>
    rw [escape, h c (List.mem_cons_self _ _), ih (fun d hd => h d (List.mem_cons_of_mem _ hd))]
    rfl

theorem Marshal_plain (name value : List Char) (hn : ∀ c ∈ name, escapeChar c = [c])
    (hv : ∀ c ∈ value, escapeChar c = [c]) :
    Marshal name value = '{' :: '"' :: (name ++ '"' :: ':' :: '"' :: (value ++ ['"', '}'])) := by
  rw [Marshal_eq, escape_plain name hn, escape_plain value hv]

end json

/-- C11. Textual form of Bytes: for every payload `p` that is not nil, of length
`n`, `Bytes.MarshalJSON` returns no error and exactly the text `{"$bytes":"E"}`
(read back, it is one object with the one key `$bytes`), where `E` is the
base64 encoding of `p`: every character of `E` is of the standard alphabet, so
`E` holds no padding character `=`, `E` has ceil(4n/3) characters and `E`
decodes to `p`.  For the 9 bytes `test data` the text is
`{"$bytes":"dGVzdCBkYXRh"}`. -/
theorem C11_bytes_textual_form (p : List Byte) :
    Bytes.MarshalJSON (Bytes.mk p) =
        (some ("\x7b\"$bytes\":\"".toList ++ base64.EncodeToString p ++ "\"\x7d".toList), none) ∧
      json.parse ("\x7b\"$bytes\":\"".toList ++ base64.EncodeToString p ++ "\"\x7d".toList) =
        some (json.Value.object
          [("$bytes".toList, json.Value.string (base64.EncodeToString p))]) ∧
      (∀ c ∈ base64.EncodeToString p, c ∈ base64.encodeStd) ∧
      '=' ∉ base64.EncodeToString p ∧
      (base64.EncodeToString p).length = (4 * p.length + 2) / 3 ∧
      base64.DecodeString (base64.EncodeToString p) = .ok p ∧
      Bytes.MarshalJSON (Bytes.mk (bytesOf TEST_BYTES_STRING)) =
        (some TEST_BYTES_JSON.toList, none) := by
  have hm : json.Marshal "$bytes".toList (base64.EncodeToString p) =
      "\x7b\"$bytes\":\"".toList ++ base64.EncodeToString p ++ "\"\x7d".toList := by
    rw [json.Marshal_plain _ _ (by decide)
      (fun c hc => json.escapeChar_alphabet c (base64.EncodeToString_mem p c hc))]
    simp
  refine ⟨?_, ?_, base64.EncodeToString_mem p, ?_, base64.EncodeToString_length p,
    base64.decode_encode p, by decide⟩
  · rw [← hm]
    simp [Bytes.MarshalJSON, Bytes.bytes, Bytes.elems]
  · rw [← hm]
    exact json.parse_Marshal _ _
  · intro h
    exact absurd (base64.EncodeToString_mem p _ h) (by decide)

/-- C12. Textual form of CIDLink: for every defined link, with the canonical
string `S`, `CIDLink.MarshalJSON` returns no error and a text that is one
object with the one key `$link` and the string `S` as its value; when `S`
holds only characters that a JSON string takes as they are (the printable
ASCII characters other than the quote, the backslash and `<`, `>`, `&`; the
alphabets of the identifier strings are among them), the text is exactly
`{"$link":"S"}`. -/
theorem C12_cidlink_textual_form (lib : CidLib) (c : CIDLink)
    (hdefined : c.link.Defined = true) :
    ∃ text, CIDLink.MarshalJSON lib c = (some text, none) ∧
      json.parse text =
        some (json.Value.object [("$link".toList, json.Value.string (c.String lib))]) ∧
      ((∀ ch ∈ c.String lib, json.htmlSafe ch = true) →
        text = "\x7b\"$link\":\"".toList ++ c.String lib ++ "\"\x7d".toList) := by
  refine ⟨json.Marshal "$link".toList (c.String lib), ?_, json.parse_Marshal _ _, ?_⟩
  · simp [CIDLink.MarshalJSON, CIDLink.String, hdefined]
  · intro hplain
    have hesc : ∀ ch ∈ c.String lib, json.escapeChar ch = [ch] := by
      intro ch hch
      have hs := hplain ch hch
      have hlt : ch.toNat < 0x80 := by
        simp only [json.htmlSafe, Bool.and_eq_true, decide_eq_true_eq] at hs
        exact hs.1.1.1.1.1.2
      simp [json.escapeChar, hlt, hs]
    rw [json.Marshal_plain _ _ (by decide) hesc]
    simp

/-- Witness of C12 at the identifier of the tests: the text is
`{"$link":"bafyreibfd77vb2setujncomtz3j6xswrmiuxlykora6nogxbr4arhqu2ye"}`. -/
theorem C12_cidlink_textual_form_witness :
    ({ link := testCid } : CIDLink).link.Defined = true ∧
      CIDLink.MarshalJSON testLib { link := testCid } =
        (some "\x7b\"$link\":\"bafyreibfd77vb2setujncomtz3j6xswrmiuxlykora6nogxbr4arhqu2ye\"\x7d".toList,
          none) := by
  refine ⟨by decide, ?_⟩
  obtain ⟨text, hm, _, hexact⟩ :=
    C12_cidlink_textual_form testLib { link := testCid } (by decide)
  rw [hm, hexact (by decide)]
  rfl

/-- C13. Parser rejection is propagated: for every string `s` that the parser
of the identifier library rejects with the error `e`,
`CIDLink.UnmarshalJSON` returns `e` and leaves the receiver as it was, on
every envelope whose `$link` string is `s`, and so on the envelope that
`json.Marshal` writes for `s`. -/
theorem C13_parser_rejection_propagated (lib : CidLib) (s : List Char) (e : Error)
    (prior : CIDLink) (hreject : lib.Decode s = .error e) :
    (∀ data, json.Unmarshal "$link".toList data = .ok s →
        CIDLink.UnmarshalJSON lib prior data = (prior, some e)) ∧
      CIDLink.UnmarshalJSON lib prior (json.Marshal "$link".toList s) = (prior, some e) := by
  have h : ∀ data, json.Unmarshal "$link".toList data = .ok s →
      CIDLink.UnmarshalJSON lib prior data = (prior, some e) := by
    intro data hdata
    unfold CIDLink.UnmarshalJSON
    rw [hdata]
    simp only [hreject]
  exact ⟨h, h _ (json.Unmarshal_Marshal _ _)⟩

/-- Witness of C13 at the envelope of `TestCIDLinkMarshalInvalidCID`: the
identifier of the tests without its last character. -/
theorem C13_parser_rejection_propagated_witness :
    testLib.Decode INVALID_CID.toList = .error (Error.cid "invalid cid") ∧
      CIDLink.UnmarshalJSON testLib { link := { str := [] } }
          ("\x7b\"$link\": \"".toList ++ INVALID_CID.toList ++ "\"\x7d".toList) =
        ({ link := { str := [] } }, some (Error.cid "invalid cid")) :=
  ⟨by decide, (C13_parser_rejection_propagated testLib INVALID_CID.toList
    (Error.cid "invalid cid") { link := { str := [] } } (by decide)).1 _ (by decide)⟩

/-- C14, counterexample. A `Bytes` that is the nil slice has a payload of length
zero; through a pointer to it that is not nil, `MarshalCBOR` returns no error
and writes the one byte 0xf6, the same as for an absent reference. -/
theorem C14_counterexample :
    Bytes.nil.elems.length = 0 ∧
      Bytes.MarshalCBOR (some Bytes.nil) Writer.buffer =
        ({ buf := [0xf6], err := none }, none) ∧
      Bytes.MarshalCBOR none Writer.buffer = ({ buf := [0xf6], err := none }, none) := by
  decide

/-- C14, amended. For a present `Bytes` that is a slice of length zero and not
nil, `MarshalCBOR` on a writer that accepts the write returns no error and
writes the one byte 0x40, the empty byte string, which differs from the
sentinel 0xf6 and which the decoder reads as the payload of length zero.  For
a present `Bytes` that is the nil slice, the encoder writes the byte 0xf6. -/
theorem C14_empty_distinct_from_absent (w : Writer) (haccept : w.err = none) :
    Bytes.MarshalCBOR (some (Bytes.mk [])) w = ({ w with buf := w.buf ++ [0x40] }, none) ∧
      ([0x40] : List Byte) ≠ [0xf6] ∧
      cbor.nextItem [0x40] = some (.ok (cbor.Item.byteString [])) ∧
      Bytes.MarshalCBOR (some Bytes.nil) w = ({ w with buf := w.buf ++ [0xf6] }, none) := by
  refine ⟨?_, by decide, by decide, ?_⟩
  · simp only [Bytes.MarshalCBOR, cbor.CTAP2EncMode, cbor.EncodeBytes, Bytes.bytes,
      Writer.Write, haccept]
    rfl
  · simp only [Bytes.MarshalCBOR, cbor.CTAP2EncMode, cbor.EncodeBytes, Bytes.bytes,
      Writer.Write, haccept]
    rfl

/-- Witness of C14 (amended) at an empty buffer. -/
theorem C14_empty_distinct_from_absent_witness :
    Writer.buffer.err = none ∧
      Bytes.MarshalCBOR (some (Bytes.mk [])) Writer.buffer =
        ({ buf := [0x40], err := none }, none) :=
  ⟨rfl, (C14_empty_distinct_from_absent Writer.buffer rfl).1⟩

namespace cbor

theorem readArgument_short (k : Nat) (s : List Byte) (h : s.length < k) :
    readArgument k s = none := by
  induction k generalizing s with
  | zero => omega
  | succ k ih =>
    cases s with
    | nil => rfl
    | cons b rest =>
      simp only [List.length_cons] at h
      simp only [readArgument, ih rest (by omega)]

theorem proper_prefix_length (q l : List Byte) (hpre : q <+: l) (hne : q ≠ l) :
    q.length < l.length := by
  rcases Nat.lt_or_ge q.length l.length with h | h
  · exact h
  · exact absurd (hpre.eq_of_length (Nat.le_antisymm hpre.length_le h)) hne

theorem readPayload_short (n : Nat) (s : List Byte) (hn : n < 2 ^ 63) (hs : s.length < n) :
    readPayload n s = .error Error.unexpectedEOF := by
  unfold readPayload
  rw [if_neg (by omega), if_pos hs]

theorem readSized_truncated (k : Nat) (args p q : List Byte) (hlen : p.length < 2 ^ 63)
    (hargs : args.length = k)
    (hread : ∀ u, readArgument k (args ++ u) = some (p.length, u))
    (hpre : q <+: args ++ p) (hne : q ≠ args ++ p) :
    readSized k q = .error Error.unexpectedEOF := by
  unfold readSized
  rcases List.prefix_or_prefix_of_prefix hpre (List.prefix_append args p) with h | h
  · by_cases heq : q = args
    · subst heq
      have hp : p ≠ [] := by
        intro hp; apply hne; rw [hp, List.append_nil]
      have := hread []
      rw [List.append_nil] at this
      rw [this]
      exact readPayload_short _ _ hlen (by
        simp only [List.length_nil]; exact List.length_pos.mpr hp)
    · rw [readArgument_short k q (by
        rw [← hargs]; exact proper_prefix_length q args h heq)]
  · obtain ⟨u, hu⟩ := h
    subst hu
    rw [hread u]
    have hup : u <+: p := (List.prefix_append_right_inj args).mp hpre
    have hune : u ≠ p := fun h => hne (by rw [h])
    exact readPayload_short _ _ hlen (proper_prefix_length u p hup hune)

/-- The decoder rejects every proper prefix of what the encoder writes for a
byte string. -/
theorem nextItem_truncated (p q : List Byte) (hlen : p.length < 2 ^ 63)
    (hpre : q <+: encodeHead cborTypeByteString p.length ++ p)
    (hne : q ≠ encodeHead cborTypeByteString p.length ++ p) :
    nextItem q = some (.error Error.eof) ∨ nextItem q = some (.error Error.unexpectedEOF) := by
  cases q with
  | nil => left; rfl
  | cons c q' =>
    right
    revert hpre hne
    unfold encodeHead
    split
    · rename_i h1
      obtain ⟨⟨ha, hb⟩, hc, hd⟩ := head_small p.length h1
      intro hpre hne
      simp only [List.cons_append, List.nil_append] at hpre hne
      obtain ⟨hcb, hq'⟩ := List.cons_prefix_cons.mp hpre
      subst hcb
      have hne' : q' ≠ p := fun h => hne (by rw [h])
      simp only [nextItem]
      rw [if_neg (by simp [ha, hb]), if_pos hc, hd, if_pos (by omega),
        readPayload_short _ _ hlen (proper_prefix_length q' p hq' hne')]
    · split
      · rename_i h1 h2
        intro hpre hne
        simp only [List.cons_append, List.nil_append] at hpre hne
        obtain ⟨hcb, hq'⟩ := List.cons_prefix_cons.mp hpre
        subst hcb
        have hne' : q' ≠ [base64.toByte p.length] ++ p := fun h => hne (by rw [h]; rfl)
        simp only [nextItem]
        rw [if_neg (by decide), if_pos (by decide), if_neg (by decide), if_pos (by decide),
          readSized_truncated 1 [base64.toByte p.length] p q' hlen rfl
            (fun u => readArgument_1 _ u h2) hq' hne']
      · split
        · rename_i h1 h2 h3
          intro hpre hne
          simp only [List.cons_append, List.nil_append] at hpre hne
          obtain ⟨hcb, hq'⟩ := List.cons_prefix_cons.mp hpre
          subst hcb
          have hne' : q' ≠ [base64.toByte (p.length >>> 8), base64.toByte p.length] ++ p :=
            fun h => hne (by rw [h]; rfl)
          simp only [nextItem]
          rw [if_neg (by decide), if_pos (by decide), if_neg (by decide), if_neg (by decide),
            if_pos (by decide),
            readSized_truncated 2 [base64.toByte (p.length >>> 8), base64.toByte p.length] p q' hlen rfl (fun u => readArgument_2 _ u h3) hq' hne']
        · split
          · rename_i h1 h2 h3 h4
            intro hpre hne
            simp only [List.cons_append, List.nil_append] at hpre hne
            obtain ⟨hcb, hq'⟩ := List.cons_prefix_cons.mp hpre
            subst hcb
            have hne' : q' ≠ [base64.toByte (p.length >>> 24), base64.toByte (p.length >>> 16),
                base64.toByte (p.length >>> 8), base64.toByte p.length] ++ p :=
              fun h => hne (by rw [h]; rfl)
            simp only [nextItem]
            rw [if_neg (by decide), if_pos (by decide), if_neg (by decide), if_neg (by decide),
              if_neg (by decide), if_pos (by decide),
              readSized_truncated 4 [base64.toByte (p.length >>> 24),
                base64.toByte (p.length >>> 16), base64.toByte (p.length >>> 8),
                base64.toByte p.length] p q' hlen rfl (fun u => readArgument_4 _ u h4) hq' hne']
          · intro hpre hne
            simp only [List.cons_append, List.nil_append] at hpre hne
            obtain ⟨hcb, hq'⟩ := List.cons_prefix_cons.mp hpre
            subst hcb
            have h8 : p.length < 2 ^ 64 := by omega
            have hne' : q' ≠ [base64.toByte (p.length >>> 56), base64.toByte (p.length >>> 48),
                base64.toByte (p.length >>> 40), base64.toByte (p.length >>> 32),
                base64.toByte (p.length >>> 24), base64.toByte (p.length >>> 16),
                base64.toByte (p.length >>> 8), base64.toByte p.length] ++ p :=
              fun h => hne (by rw [h]; rfl)
            simp only [nextItem]
            rw [if_neg (by decide), if_pos (by decide), if_neg (by decide), if_neg (by decide),
              if_neg (by decide), if_neg (by decide), if_pos (by decide),
              readSized_truncated 8 [base64.toByte (p.length >>> 56),
                base64.toByte (p.length >>> 48), base64.toByte (p.length >>> 40),
                base64.toByte (p.length >>> 32), base64.toByte (p.length >>> 24),
                base64.toByte (p.length >>> 16), base64.toByte (p.length >>> 8),
                base64.toByte p.length] p q' hlen rfl (fun u => readArgument_8 _ u h8) hq' hne']

end cbor

/-- C15. Truncated binary input is rejected: for every payload `p` that is not
nil (a Go slice has fewer than 2^63 elements) and every proper prefix `q`, the
empty one included, of the bytes that `MarshalCBOR` writes for `p`,
`Bytes.UnmarshalCBOR` reading `q` returns an error (`io.EOF` for the empty
prefix, `io.ErrUnexpectedEOF` otherwise) and leaves the receiver as it was. -/
theorem C15_truncated_input_rejected (p q : List Byte) (prior : Bytes) (w : Writer)
    (hlen : p.length < 2 ^ 63)
    (hwritten : Bytes.MarshalCBOR (some (Bytes.mk p)) Writer.buffer = (w, none))
    (hstart : q <+: w.buf) (hproper : q ≠ w.buf) :
    Bytes.UnmarshalCBOR prior q = some (prior, some Error.eof) ∨
      Bytes.UnmarshalCBOR prior q = some (prior, some Error.unexpectedEOF) := by
  have hw : w.buf = cbor.encodeHead cbor.cborTypeByteString p.length ++ p := by
    simp only [Bytes.MarshalCBOR, cbor.CTAP2EncMode, cbor.EncodeBytes, cbor.encodeByteString,
      Bytes.bytes, Writer.Write, Writer.buffer, Prod.mk.injEq, and_true] at hwritten
    rw [← hwritten]
    rfl
  rw [hw] at hstart hproper
  rcases cbor.nextItem_truncated p q hlen hstart hproper with h | h
  · left; simp only [Bytes.UnmarshalCBOR, h]
  · right; simp only [Bytes.UnmarshalCBOR, h]

/-- Witness of C15 at the payload of the tests, cut after its fourth byte. -/
theorem C15_truncated_input_rejected_witness :
    Bytes.MarshalCBOR (some (Bytes.mk (bytesOf TEST_BYTES_STRING))) Writer.buffer =
        ({ buf := 0x49 :: bytesOf TEST_BYTES_STRING, err := none }, none) ∧
      (Bytes.UnmarshalCBOR Bytes.nil (0x49 :: bytesOf "test") = some (Bytes.nil, some Error.eof) ∨
        Bytes.UnmarshalCBOR Bytes.nil (0x49 :: bytesOf "test") =
          some (Bytes.nil, some Error.unexpectedEOF)) :=
  ⟨by decide, C15_truncated_input_rejected (bytesOf TEST_BYTES_STRING) (0x49 :: bytesOf "test")
    Bytes.nil { buf := 0x49 :: bytesOf TEST_BYTES_STRING, err := none } (by decide) (by decide)
    ⟨bytesOf " data", by decide⟩ (by decide)⟩

/-- C16. Binary round trip for CIDLink: for every defined link `c` whose
identifier the library's `Cast` reads back from its binary form (and whose
binary form, a Go string, has fewer than 2^63 bytes), `MarshalCBOR` through a
pointer to `c` writes to a buffer without error; the bytes written are what
the generic encoder writes for the identifier, the byte string of its binary
form; and `CIDLink.UnmarshalCBOR` reading those bytes returns no error and
leaves the receiver's identifier equal to that of `c`. -/
theorem C16_cidlink_binary_round_trip (lib : CidLib) (c prior : CIDLink)
    (hdefined : c.link.Defined = true)
    (hcast : lib.Cast c.link.MarshalBinary = .ok c.link)
    (hlen : c.link.MarshalBinary.length < 2 ^ 63) :
    ∃ w, CIDLink.MarshalCBOR (some c) Writer.buffer = (w, none) ∧
      cbor.EncodeCid Writer.buffer c.link = (w, none) ∧
      w.buf = cbor.encodeHead cbor.cborTypeByteString c.link.str.length ++ c.link.str ∧
      CIDLink.UnmarshalCBOR lib prior w.buf = some ({ link := c.link }, none) := by
  refine ⟨Writer.mk (cbor.encodeHead cbor.cborTypeByteString c.link.str.length ++ c.link.str)
    none, ?_, ?_, rfl, ?_⟩
  · simp [CIDLink.MarshalCBOR, cbor.CTAP2EncMode, hdefined, cbor.EncodeCid, Writer.Write,
      Writer.buffer, Cid.MarshalBinary]
  · simp [cbor.EncodeCid, Writer.Write, Writer.buffer, Cid.MarshalBinary]
  · have h := cbor.nextItem_encode c.link.str [] hlen
    rw [List.append_nil] at h
    simp only [Cid.MarshalBinary] at hcast
    simp only [CIDLink.UnmarshalCBOR, h, Cid.UnmarshalBinary, hcast]

/-- Witness of C16 at the identifier of the tests and a receiver that holds
the zero value. -/
theorem C16_cidlink_binary_round_trip_witness :
    (({ link := testCid } : CIDLink).link.Defined = true ∧
        testLib.Cast testCid.MarshalBinary = .ok testCid) ∧
      ∃ w, CIDLink.MarshalCBOR (some { link := testCid }) Writer.buffer = (w, none) ∧
        cbor.EncodeCid Writer.buffer testCid = (w, none) ∧
        w.buf = cbor.encodeHead cbor.cborTypeByteString testCid.str.length ++ testCid.str ∧
        CIDLink.UnmarshalCBOR testLib { link := { str := [] } } w.buf =
          some ({ link := testCid }, none) :=
  ⟨⟨by decide, by decide⟩, C16_cidlink_binary_round_trip testLib { link := testCid }
    { link := { str := [] } } (by decide) (by decide) (by decide)⟩

/-- C17. The call of `TestBytes_UnmarshalJSON`: on the envelope
`{"$bytes":"dGVzdCBkYXRh"}`, whatever the receiver held, `Bytes.UnmarshalJSON`
returns no error and leaves the receiver equal to the 9 bytes `test data`
(`TEST_BYTES_STRING`), the base64 decoding of the marker string.  On the nil
receiver of the test this is not `Bytes("dGVzdCBkYXRh")`, the 12 bytes of
`TEST_BYTES` that the test expects. -/
theorem C17_unmarshal_test_envelope (prior : Bytes) :
    Bytes.UnmarshalJSON prior TEST_BYTES_JSON.toList =
        (Bytes.mk (bytesOf TEST_BYTES_STRING), none) ∧
      (bytesOf TEST_BYTES_STRING).length = 9 ∧
      base64.DecodeString TEST_BYTES.toList = .ok (bytesOf TEST_BYTES_STRING) ∧
      (bytesOf TEST_BYTES).length = 12 ∧
      Bytes.UnmarshalJSON Bytes.nil TEST_BYTES_JSON.toList ≠
        (Bytes.mk (bytesOf TEST_BYTES), none) := by
  refine ⟨?_, by decide, by decide, by decide, by decide⟩
  have hj : json.Unmarshal "$bytes".toList TEST_BYTES_JSON.toList = .ok TEST_BYTES.toList := by
    decide
  have hd : base64.DecodeString TEST_BYTES.toList = .ok (bytesOf TEST_BYTES_STRING) := by decide
  simp only [Bytes.UnmarshalJSON, hj, hd]

/-- C18. Failed text decodes leave the receiver as it was: whenever
`Bytes.UnmarshalJSON` or `CIDLink.UnmarshalJSON` returns an error `e`, be it
of the JSON decoder, of the base64 decoder or of the parser of identifiers,
the receiver afterwards is the receiver before the call. -/
theorem C18_failed_text_decode_keeps_receiver (lib : CidLib) (data : List Char) :
    (∀ (b after : Bytes) (e : Error),
        Bytes.UnmarshalJSON b data = (after, some e) → after = b) ∧
      (∀ (c after : CIDLink) (e : Error),
        CIDLink.UnmarshalJSON lib c data = (after, some e) → after = c) := by
  constructor
  · intro b after e h
    unfold Bytes.UnmarshalJSON at h
    cases hj : json.Unmarshal "$bytes".toList data with
    | error err => rw [hj] at h; simp only [Prod.mk.injEq] at h; exact h.1.symm
    | ok jb =>
      rw [hj] at h
      simp only at h
      cases hd : base64.DecodeString jb with
      | error err => rw [hd] at h; simp only [Prod.mk.injEq] at h; exact h.1.symm
      | ok decoded => rw [hd] at h; simp at h
  · intro c after e h
    unfold CIDLink.UnmarshalJSON at h
    cases hj : json.Unmarshal "$link".toList data with
    | error err => rw [hj] at h; simp only [Prod.mk.injEq] at h; exact h.1.symm
    | ok jl =>
      rw [hj] at h
      simp only at h
      cases hd : lib.Decode jl with
      | error err => rw [hd] at h; simp only [Prod.mk.injEq] at h; exact h.1.symm
      | ok link => rw [hd] at h; simp at h

/-- Witness of C18: a text that is not JSON, a marker string that is not
base64 and a string that the parser of identifiers rejects, on receivers that
hold the values of the tests. -/
theorem C18_failed_text_decode_keeps_receiver_witness :
    Bytes.UnmarshalJSON (Bytes.mk (bytesOf TEST_BYTES_STRING))
        "\x7b\"$bytes\":\"dGVzdA==\"\x7d".toList =
        (Bytes.mk (bytesOf TEST_BYTES_STRING), some Error.base64CorruptInput) ∧
      CIDLink.UnmarshalJSON testLib { link := testCid }
          "\x7b\"$bytes\":\"dGVzdA==\"\x7d".toList =
        ({ link := testCid }, some (Error.cid "invalid cid")) ∧
      Bytes.mk (bytesOf TEST_BYTES_STRING) = Bytes.mk (bytesOf TEST_BYTES_STRING) ∧
      ({ link := testCid } : CIDLink) = { link := testCid } :=
  ⟨by decide, by decide,
    (C18_failed_text_decode_keeps_receiver testLib "\x7b\"$bytes\":\"dGVzdA==\"\x7d".toList).1
      _ _ Error.base64CorruptInput (by decide),
    (C18_failed_text_decode_keeps_receiver testLib "\x7b\"$bytes\":\"dGVzdA==\"\x7d".toList).2
      _ _ (Error.cid "invalid cid") (by decide)⟩

namespace cbor

theorem head_small_add : ∀ n, n ≤ 23 →
    base64.toByte (cborTypeByteString ||| n) = base64.toByte (0x40 + n) := by
  decide

end cbor

/-- C19. Binary form of a present payload: for every payload `p` that is not
nil, of length `n` (below 2^63, as for every Go slice), `Bytes.MarshalCBOR`
through a pointer that is not nil writes to a buffer, without error, one byte
string of definite length and nothing else: a head of major type 2 in shortest
form (the byte 0x40+n when n < 24; 0x58 and n when 24 <= n < 256; 0x59 and n
in 2 big-endian bytes when 256 <= n < 65536; 0x5a and n in 4 bytes when
65536 <= n < 2^32; 0x5b and n in 8 bytes from there on), followed by the n
bytes of `p`; and the decoder reads the item back as the payload `p`. -/
theorem C19_bytes_binary_form (p : List Byte) (hlen : p.length < 2 ^ 63) :
    ∃ head, Bytes.MarshalCBOR (some (Bytes.mk p)) Writer.buffer =
        ({ buf := head ++ p, err := none }, none) ∧
      (p.length < 24 → head = [base64.toByte (0x40 + p.length)]) ∧
      (24 ≤ p.length → p.length < 256 → head = [0x58, base64.toByte p.length]) ∧
      (256 ≤ p.length → p.length < 65536 →
        head = [0x59, base64.toByte (p.length / 256), base64.toByte p.length]) ∧
      (65536 ≤ p.length → p.length < 2 ^ 32 →
        head = [0x5a, base64.toByte (p.length / 2 ^ 24), base64.toByte (p.length / 2 ^ 16),
          base64.toByte (p.length / 2 ^ 8), base64.toByte p.length]) ∧
      (2 ^ 32 ≤ p.length →
        head = [0x5b, base64.toByte (p.length / 2 ^ 56), base64.toByte (p.length / 2 ^ 48),
          base64.toByte (p.length / 2 ^ 40), base64.toByte (p.length / 2 ^ 32),
          base64.toByte (p.length / 2 ^ 24), base64.toByte (p.length / 2 ^ 16),
          base64.toByte (p.length / 2 ^ 8), base64.toByte p.length]) ∧
      cbor.nextItem (head ++ p) = some (.ok (cbor.Item.byteString p)) := by
  refine ⟨cbor.encodeHead cbor.cborTypeByteString p.length, ?_, ?_, ?_, ?_, ?_, ?_, ?_⟩
  · simp [Bytes.MarshalCBOR, cbor.CTAP2EncMode, cbor.EncodeBytes, cbor.encodeByteString,
      Bytes.bytes, Writer.Write, Writer.buffer]
  · intro h
    rw [cbor.encodeHead, if_pos (by omega), cbor.head_small_add _ (by omega)]
  · intro h1 h2
    rw [cbor.encodeHead, if_neg (by omega), if_pos (by omega)]
    rfl
  · intro h1 h2
    rw [cbor.encodeHead, if_neg (by omega), if_neg (by omega), if_pos (by omega),
      Nat.shiftRight_eq_div_pow]
    rfl
  · intro h1 h2
    rw [cbor.encodeHead, if_neg (by omega), if_neg (by omega), if_neg (by omega),
      if_pos (by omega)]
    simp only [Nat.shiftRight_eq_div_pow]
    rfl
  · intro h1
    rw [cbor.encodeHead, if_neg (by omega), if_neg (by omega), if_neg (by omega),
      if_neg (by omega)]
    simp only [Nat.shiftRight_eq_div_pow]
    rfl
  · have h := cbor.nextItem_encode p [] hlen
    rw [List.append_nil] at h
    exact h

/-- Witness of C19 at the payload of the tests: the head is the byte 0x49. -/
theorem C19_bytes_binary_form_witness :
    (bytesOf TEST_BYTES_STRING).length < 2 ^ 63 ∧
      ∃ head, Bytes.MarshalCBOR (some (Bytes.mk (bytesOf TEST_BYTES_STRING))) Writer.buffer =
          ({ buf := head ++ bytesOf TEST_BYTES_STRING, err := none }, none) ∧
        head = [0x49] := by
  refine ⟨by decide, ?_⟩
  obtain ⟨head, hw, hsmall, _⟩ := C19_bytes_binary_form (bytesOf TEST_BYTES_STRING) (by decide)
  exact ⟨head, hw, (hsmall (by decide)).trans (by decide)⟩

/-- C20. On the stream that holds the one byte 0xf6, which is what `MarshalCBOR`
writes for an absent reference, `Bytes.UnmarshalCBOR` returns no error and
leaves the receiver as it was, whatever it held: the caller sees the same
outcome as when nothing was decoded into the receiver. -/
theorem C20_null_leaves_receiver_unchanged (b : Bytes) :
    Bytes.MarshalCBOR none Writer.buffer = ({ buf := [0xf6], err := none }, none) ∧
      Bytes.UnmarshalCBOR b [0xf6] = some (b, none) := by
  constructor
  · decide
  · simp [Bytes.UnmarshalCBOR, cbor.nextItem]

end data
